import Mathlib

/-!
Verification of the zipstream library (a streaming ZIP archive reader) against its
natural-language specification.

The Go source is shallowly embedded: the byte stream is a `List Nat` of byte values,
machine integers are `Nat`/`Int` with explicit wrapping where the source can overflow,
fallible operations return `Except GoError`, and the relevant pieces of the Go standard
library that the source calls (`encoding/binary` little-endian readers, `bufio` peek and
discard semantics, `time.Date`, `time.Duration` rounding, `unicode/utf8` decoding) are
embedded alongside, faithful to their documented and implemented behaviour.
-/

set_option autoImplicit false

namespace Zipstream

/-! ## Errors

Models the error values the source can surface: io.EOF (also used by Next as the
end-of-archive sentinel), io.ErrUnexpectedEOF (from io.ReadFull on a partial read),
zip.ErrFormat, zip.ErrAlgorithm, and the ad-hoc error built in discardDirectory64End. -/

inductive GoError where
  | eof
  | unexpectedEOF
  | errFormat
  | errAlgorithm
  | sizeOverflow
deriving DecidableEq

/-! ## Little-endian readers (encoding/binary and the readBuf helpers of stolen.go) -/

/-- Byte at index i of the stream, 0 past the end (indices used are always in range
where it matters; length checks in the parsers precede every read). -/
def byteAt : List Nat → Nat → Nat
  | [], _ => 0
  | b :: _, 0 => b
  | _ :: rest, i + 1 => byteAt rest i

/-- binary.LittleEndian.Uint16 / readBuf.uint16. -/
def le16 (bs : List Nat) : Nat := byteAt bs 0 + 256 * byteAt bs 1

/-- binary.LittleEndian.Uint32 / readBuf.uint32. -/
def le32 (bs : List Nat) : Nat :=
  byteAt bs 0 + 256 * byteAt bs 1 + 65536 * byteAt bs 2 + 16777216 * byteAt bs 3

/-- binary.LittleEndian.Uint64 / readBuf.uint64. -/
def le64 (bs : List Nat) : Nat := le32 bs + 4294967296 * le32 (bs.drop 4)

/-! ## Signatures and extra-field tags (stolen.go, struct.go section) -/

def fileHeaderSignature : Nat := 0x04034b50
def directoryHeaderSignature : Nat := 0x02014b50
def directoryEndSignature : Nat := 0x06054b50
def directory64LocSignature : Nat := 0x07064b50
def directory64EndSignature : Nat := 0x06064b50
def dataDescriptorSignature : Nat := 0x08074b50
def fileHeaderLen : Nat := 30

def zip64ExtraID : Nat := 0x0001
def ntfsExtraID : Nat := 0x000a
def unixExtraID : Nat := 0x000d
def extTimeExtraID : Nat := 0x5455
def infoZipUnixExtraID : Nat := 0x5855

/-! ## Go time model

A time.Time value is modelled by its instant (nanoseconds since the Unix epoch, exact
integer) together with its location, which for this library is either time.UTC or a
time.FixedZone with an offset in seconds. This captures exactly the distinctions the
source makes (instant arithmetic, IsZero, UTC vs FixedZone — the source itself notes
that Modified.Location() == time.UTC tells extended timestamps apart). -/

structure GoTime where
  ns : Int
  offset : Int
  isUTC : Bool
deriving DecidableEq

/-- Go integer division truncates toward zero. -/
def tdivI (a b : Int) : Int := Int.tdiv a b
def tmodI (a b : Int) : Int := Int.tmod a b

/-- The norm helper of time.Date: redistribute lo into hi so that 0 <= lo < base.
This is exactly floor division / floor modulus. -/
def normDiv (hi lo base : Int) : Int × Int := (hi + Int.fdiv lo base, Int.fmod lo base)

/-- isLeap from the time package. -/
def isLeapYear (y : Int) : Bool := Int.emod y 4 = 0 ∧ (Int.emod y 100 ≠ 0 ∨ Int.emod y 400 = 0)

/-- daysBefore[m] of the time package: days in a non-leap year before the month with
zero-based index m. -/
def daysBeforeMonth (m : Int) : Int :=
  if m = 0 then 0 else if m = 1 then 31 else if m = 2 then 59 else if m = 3 then 90
  else if m = 4 then 120 else if m = 5 then 151 else if m = 6 then 181 else if m = 7 then 212
  else if m = 8 then 243 else if m = 9 then 273 else if m = 10 then 304 else 334

/-- time.Date(year, month, day, hour, minute, sec, 0, time.UTC).Unix(): normalizes the
fields exactly as time.Date does, then counts days in the proleptic Gregorian calendar.
719162 is the day count from January 1 of year 1 to January 1 of 1970. -/
def goDateToUnix (year month day hour minute sec : Int) : Int :=
  let p1 := normDiv year (month - 1) 12
  let year1 := p1.1
  let m := p1.2
  let p2 := normDiv minute sec 60
  let minute1 := p2.1
  let sec1 := p2.2
  let p3 := normDiv hour minute1 60
  let hour1 := p3.1
  let minute2 := p3.2
  let p4 := normDiv day hour1 24
  let day1 := p4.1
  let hour2 := p4.2
  let y1 := year1 - 1
  let days := 365 * y1 + Int.fdiv y1 4 - Int.fdiv y1 100 + Int.fdiv y1 400
    + daysBeforeMonth m + (if isLeapYear year1 ∧ 2 ≤ m then 1 else 0) + (day1 - 1)
  (days - 719162) * 86400 + hour2 * 3600 + minute2 * 60 + sec1

/-- The instant of the zero time.Time (January 1, year 1, 00:00:00 UTC), in
nanoseconds since the Unix epoch; t.IsZero() compares against it. -/
def zeroTimeNs : Int := goDateToUnix 1 1 1 0 0 0 * 1000000000

/-- msDosTimeToTime of stolen.go: decode the MS-DOS date/time bit fields through
time.Date in UTC (2-second resolution), as an instant in nanoseconds. -/
def msDosToUnixNs (dosDate dosTime : Nat) : Int :=
  goDateToUnix (dosDate / 512 + 1980) (dosDate / 32 % 16) (dosDate % 32)
    (dosTime / 2048) (dosTime / 32 % 64) (dosTime % 32 * 2) * 1000000000

def minDuration : Int := -9223372036854775808
def maxDuration : Int := 9223372036854775807

/-- time.Time.Sub: the difference of the two instants, saturated to the int64
range of time.Duration. -/
def durSub (a b : Int) : Int :=
  let d := a - b
  if d < minDuration then minDuration else if maxDuration < d then maxDuration else d

/-- time.Duration.Round for the 15-minute multiple used by timeZone: rounds half away
from zero, saturating to minDuration/maxDuration on int64 overflow. -/
def durRound15min (d : Int) : Int :=
  let m : Int := 900000000000
  let r := tmodI d m
  if d < 0 then
    let r1 := -r
    if r1 + r1 < m then d + r1
    else if d - m + r1 < minDuration then minDuration else d - m + r1
  else
    if r + r < m then d - r
    else if maxDuration < d + m - r then maxDuration else d + m - r

/-- timeZone of stolen.go, reduced to the offset in seconds of the FixedZone it
returns: round the delta to the nearest 15 minutes; a result outside [-12h, +14h]
collapses to zero. -/
def timeZoneOffsetSecs (offset : Int) : Int :=
  let o := durRound15min offset
  if o < -43200000000000 ∨ 50400000000000 < o then 0 else tdivI o 1000000000

/-! ## unicode/utf8 decoding (used by detectUTF8 in stolen.go)

utf8.DecodeRuneInString: returns the first rune and its encoded size; on an empty
string returns (RuneError, 0); on an invalid, overlong, surrogate, out-of-range or
truncated encoding returns (RuneError, 1). -/

def runeErrorVal : Nat := 0xFFFD

def decodeRune (s : List Nat) : Nat × Nat :=
  match s with
  | [] => (runeErrorVal, 0)
  | c0 :: rest =>
    if c0 < 0x80 then (c0, 1)
    else if c0 < 0xC2 then (runeErrorVal, 1)
    else if c0 < 0xE0 then
      match rest with
      | [] => (runeErrorVal, 1)
      | c1 :: _ =>
        if 0x80 ≤ c1 ∧ c1 ≤ 0xBF then ((c0 - 0xC0) * 64 + (c1 - 0x80), 2)
        else (runeErrorVal, 1)
    else if c0 < 0xF0 then
      let lo1 := if c0 = 0xE0 then 0xA0 else 0x80
      let hi1 := if c0 = 0xED then 0x9F else 0xBF
      match rest with
      | [] => (runeErrorVal, 1)
      | c1 :: rest2 =>
        if lo1 ≤ c1 ∧ c1 ≤ hi1 then
          match rest2 with
          | [] => (runeErrorVal, 1)
          | c2 :: _ =>
            if 0x80 ≤ c2 ∧ c2 ≤ 0xBF then
              (((c0 - 0xE0) * 64 + (c1 - 0x80)) * 64 + (c2 - 0x80), 3)
            else (runeErrorVal, 1)
        else (runeErrorVal, 1)
    else if c0 < 0xF5 then
      let lo1 := if c0 = 0xF0 then 0x90 else 0x80
      let hi1 := if c0 = 0xF4 then 0x8F else 0xBF
      match rest with
      | [] => (runeErrorVal, 1)
      | c1 :: rest2 =>
        if lo1 ≤ c1 ∧ c1 ≤ hi1 then
          match rest2 with
          | [] => (runeErrorVal, 1)
          | c2 :: rest3 =>
            if 0x80 ≤ c2 ∧ c2 ≤ 0xBF then
              match rest3 with
              | [] => (runeErrorVal, 1)
              | c3 :: _ =>
                if 0x80 ≤ c3 ∧ c3 ≤ 0xBF then
                  ((((c0 - 0xF0) * 64 + (c1 - 0x80)) * 64 + (c2 - 0x80)) * 64 + (c3 - 0x80), 4)
                else (runeErrorVal, 1)
            else (runeErrorVal, 1)
        else (runeErrorVal, 1)
    else (runeErrorVal, 1)

/-- utf8.ValidRune. -/
def validRune (r : Nat) : Bool := ¬(0xD800 ≤ r ∧ r ≤ 0xDFFF) ∧ r ≤ 0x10FFFF

theorem decodeRune_size_pos (c : Nat) (rest : List Nat) :
    1 ≤ (decodeRune (c :: rest)).2 := by
  unfold decodeRune
  dsimp only
  repeat' split
  all_goals simp

theorem decodeRune_drop_length_lt (c : Nat) (rest : List Nat) :
    ((c :: rest).drop (decodeRune (c :: rest)).2).length < (c :: rest).length := by
  simp only [List.length_drop, List.length_cons]
  have := decodeRune_size_pos c rest
  omega

/-- detectUTF8 of stolen.go, with the accumulating require flag of its loop made an
explicit parameter; returns (valid, require). -/
def detectUTF8 : List Nat → Bool → Bool × Bool
  | [], req => (true, req)
  | c :: rest, req =>
    let p := decodeRune (c :: rest)
    if p.1 < 0x20 ∨ 0x7d < p.1 ∨ p.1 = 0x5c then
      if ¬validRune p.1 ∨ (p.1 = runeErrorVal ∧ p.2 = 1) then (false, false)
      else detectUTF8 ((c :: rest).drop p.2) true
    else detectUTF8 ((c :: rest).drop p.2) req
termination_by s _ => s.length
decreasing_by
  all_goals exact decodeRune_drop_length_lt _ _

/-- The sequence of (rune, size) decode steps over a byte string, decoding exactly as
the detectUTF8 loop advances. Used to state the encoding claims independently. -/
def decodedRunes : List Nat → List (Nat × Nat)
  | [] => []
  | c :: rest =>
    let p := decodeRune (c :: rest)
    p :: decodedRunes ((c :: rest).drop p.2)
termination_by s => s.length
decreasing_by
  all_goals exact decodeRune_drop_length_lt _ _

/-- Every decoded character of the name is in [0x20, 0x7D] and is not 0x5C. -/
def nameAllInRange (s : List Nat) : Bool :=
  (decodedRunes s).all fun p => decide (0x20 ≤ p.1) && decide (p.1 ≤ 0x7d) && decide (p.1 ≠ 0x5c)

/-- The name contains an invalid UTF-8 byte sequence: some decode step yields the
single-byte replacement character (or an invalid rune). -/
def nameHasInvalidUTF8 (s : List Nat) : Bool :=
  (decodedRunes s).any fun p => !validRune p.1 || (decide (p.1 = runeErrorVal) && decide (p.2 = 1))

/-! ## Entry metadata (zip.FileHeader, the fields this library fills in) -/

structure FileHeader where
  readerVersion : Nat
  flags : Nat
  method : Nat
  modifiedTime : Nat
  modifiedDate : Nat
  crc32 : Nat
  compressedSize : Nat
  uncompressedSize : Nat
  compressedSize64 : Nat
  uncompressedSize64 : Nat
  name : List Nat
  extra : List Nat
  nonUTF8 : Bool
  modified : GoTime
deriving DecidableEq

/-- The NonUTF8 classification switch of readFileHeader (reader.go lines 125-140);
the Comment of a freshly decoded local header is always the empty string. -/
def nonUTF8Of (name : List Nat) (flags : Nat) : Bool :=
  let p1 := detectUTF8 name false
  let p2 := detectUTF8 [] false
  if ¬p1.1 ∨ ¬p2.1 then true
  else if ¬p1.2 ∧ ¬p2.2 then false
  else decide (flags % 4096 / 2048 = 0)

/-- The mutable state threaded through the parseExtras loop of readFileHeader:
the 64-bit sizes, the two still-deferred flags, and the extra-derived modify time
(the zero time.Time when none has been found). -/
structure ExtrasState where
  u64 : Nat
  c64 : Nat
  needU : Bool
  needC : Bool
  modNs : Int
deriving DecidableEq

/-- uint64 reinterpreted as int64 (the cast in the NTFS branch). -/
def toInt64 (n : Nat) : Int := if n < 9223372036854775808 then (n : Int) else (n : Int) - 18446744073709551616

/-- The nested attribute walk of the NTFS extra field (reader.go lines 184-201):
only attribute tag 1 of size 24 carries the Windows filetime; the modify time is
time.Unix(epoch.Unix()+ts/1e7, 100*(ts%1e7)) with epoch = 1601-01-01 UTC. -/
def ntfsLoop : List Nat → Int → Int
  | fb, m =>
    if fb.length < 4 then m
    else
      let attrTag := le16 fb
      let attrSize := le16 (fb.drop 2)
      let rest := fb.drop 4
      if rest.length < attrSize then m
      else
        let attrBuf := rest.take attrSize
        let fb2 := rest.drop attrSize
        if attrTag = 1 ∧ attrSize = 24 then
          let ts := toInt64 (le64 attrBuf)
          let secs := tdivI ts 10000000
          let nsecs := 100 * tmodI ts 10000000
          ntfsLoop fb2 ((goDateToUnix 1601 1 1 0 0 0 + secs) * 1000000000 + nsecs)
        else ntfsLoop fb2 m
termination_by fb _ => fb.length
decreasing_by
  all_goals
    simp only [List.length_drop]
    omega

/-- Dispatch on one extra-field sub-record (the switch body of parseExtras,
reader.go lines 159-215). Only the ZIP64 branch can fail. -/
def processField (tag : Nat) (fb : List Nat) (st : ExtrasState) : Except GoError ExtrasState :=
  if tag = zip64ExtraID then
    if st.needU then
      if fb.length < 8 then .error .errFormat
      else
        let st1 := { st with needU := false, u64 := le64 fb }
        let fb1 := fb.drop 8
        if st1.needC then
          if fb1.length < 8 then .error .errFormat
          else .ok { st1 with needC := false, c64 := le64 fb1 }
        else .ok st1
    else
      if st.needC then
        if fb.length < 8 then .error .errFormat
        else .ok { st with needC := false, c64 := le64 fb }
      else .ok st
  else if tag = ntfsExtraID then
    if fb.length < 4 then .ok st
    else .ok { st with modNs := ntfsLoop (fb.drop 4) st.modNs }
  else if tag = unixExtraID ∨ tag = infoZipUnixExtraID then
    if fb.length < 8 then .ok st
    else .ok { st with modNs := (le32 (fb.drop 4) : Int) * 1000000000 }
  else if tag = extTimeExtraID then
    if fb.length < 5 ∨ byteAt fb 0 % 2 = 0 then .ok st
    else .ok { st with modNs := (le32 (fb.drop 1) : Int) * 1000000000 }
  else .ok st

/-- The parseExtras loop of readFileHeader (reader.go lines 150-216): walk tag/size/
payload sub-records while at least 4 bytes remain; a declared size larger than the
remaining bytes ends the walk without error. -/
def parseExtras : List Nat → ExtrasState → Except GoError ExtrasState
  | extra, st =>
    if extra.length < 4 then .ok st
    else
      let fieldTag := le16 extra
      let fieldSize := le16 (extra.drop 2)
      let rest := extra.drop 4
      if rest.length < fieldSize then .ok st
      else
        match processField fieldTag (rest.take fieldSize) st with
        | .error e => .error e
        | .ok st1 => parseExtras (rest.drop fieldSize) st1
termination_by extra _ => extra.length
decreasing_by
  all_goals
    simp only [List.length_drop]
    omega

/-- Whether the parseExtras walk reaches (and therefore consults) a ZIP64 sub-record:
the same traversal as parseExtras, answering only that question. -/
def extrasHasZip64 (extra : List Nat) : Bool :=
  if extra.length < 4 then false
  else if (extra.drop 4).length < le16 (extra.drop 2) then false
  else if le16 extra = zip64ExtraID then true
  else extrasHasZip64 ((extra.drop 4).drop (le16 (extra.drop 2)))
termination_by extra.length
decreasing_by
  all_goals
    simp only [List.length_drop]
    omega

/-- The timestamp resolution of readFileHeader (reader.go lines 218-234): the DOS
decode is the baseline; a non-zero extra-derived time replaces it, expressed in a
FixedZone inferred from the DOS-minus-extra delta when the legacy DOS fields are
set, and in plain UTC when both DOS fields are zero. -/
def resolveModified (dosDate dosTime : Nat) (modNs : Int) : GoTime :=
  let msdos : GoTime := { ns := msDosToUnixNs dosDate dosTime, offset := 0, isUTC := true }
  if modNs = zeroTimeNs then msdos
  else if dosTime ≠ 0 ∨ dosDate ≠ 0 then
    { ns := modNs, offset := timeZoneOffsetSecs (durSub msdos.ns modNs), isUTC := false }
  else { ns := modNs, offset := 0, isUTC := true }

/-- readFileHeader of reader.go. Reads the 30 fixed bytes, validates the signature,
reads name and extra, classifies the encoding, walks the extra fields, resolves the
timestamp, and fails with ErrFormat if the compressed size is still deferred.
Returns the header and the unconsumed remainder of the stream. On an error the
remainder is not modelled (the spec leaves the position undefined after a failure);
the full input is returned there. -/
def readFileHeader (bs : List Nat) : Except GoError (FileHeader × List Nat) :=
  if bs.length < 30 then .error (if bs.length = 0 then .eof else .unexpectedEOF)
  else if le32 bs ≠ fileHeaderSignature then .error .errFormat
  else
    let version := le16 (bs.drop 4)
    let flags := le16 (bs.drop 6)
    let method := le16 (bs.drop 8)
    let modTime := le16 (bs.drop 10)
    let modDate := le16 (bs.drop 12)
    let crc := le32 (bs.drop 14)
    let csize := le32 (bs.drop 18)
    let usize := le32 (bs.drop 22)
    let filenameLen := le16 (bs.drop 26)
    let extraLen := le16 (bs.drop 28)
    let rest := bs.drop 30
    if rest.length < filenameLen + extraLen then
      .error (if rest.length = 0 then .eof else .unexpectedEOF)
    else
      let name := rest.take filenameLen
      let extra := (rest.drop filenameLen).take extraLen
      let rest2 := rest.drop (filenameLen + extraLen)
      let st0 : ExtrasState :=
        { u64 := usize, c64 := csize,
          needU := decide (usize = 4294967295), needC := decide (csize = 4294967295),
          modNs := zeroTimeNs }
      match parseExtras extra st0 with
      | .error e => .error e
      | .ok st =>
        if st.needC then .error .errFormat
        else
          .ok ({ readerVersion := version, flags := flags, method := method,
                 modifiedTime := modTime, modifiedDate := modDate, crc32 := crc,
                 compressedSize := csize, uncompressedSize := usize,
                 compressedSize64 := st.c64, uncompressedSize64 := st.u64,
                 name := name, extra := extra, nonUTF8 := nonUTF8Of name flags,
                 modified := resolveModified modDate modTime st.modNs }, rest2)

/-! ## Central directory skipper (centralDirectory.go)

bufio semantics: Peek(n) and Discard(n) fail with the underlying read error — io.EOF
for an exhausted input — when fewer than n bytes remain. On a failed sub-discard the
stream position is not modelled further (the enclosing call aborts). -/

/-- discardDirectoryHeaderRecord: discard 28 bytes, peek the three 2-byte lengths,
discard 18 + lengths. -/
def discardDirectoryHeaderRecord (bs : List Nat) : Except GoError (List Nat) :=
  if bs.length < 28 then .error .eof
  else
    let bs1 := bs.drop 28
    if bs1.length < 6 then .error .eof
    else
      let lengths := le16 bs1 + le16 (bs1.drop 2) + le16 (bs1.drop 4)
      if bs1.length < 18 + lengths then .error .eof
      else .ok (bs1.drop (18 + lengths))

/-- discardDirectoryEndRecord: discard 20 bytes, peek the 2-byte comment length,
discard 2 + comment length. -/
def discardDirectoryEndRecord (bs : List Nat) : Except GoError (List Nat) :=
  if bs.length < 20 then .error .eof
  else
    let bs1 := bs.drop 20
    if bs1.length < 2 then .error .eof
    else if bs1.length < 2 + le16 bs1 then .error .eof
    else .ok (bs1.drop (2 + le16 bs1))

/-- discardDirectory64End: peek 12 bytes, the trailing 8 of which state the remaining
record size; reject a total above 2^31 - 1; discard the whole record. -/
def discardDirectory64End (bs : List Nat) : Except GoError (List Nat) :=
  if bs.length < 12 then .error .eof
  else
    let totalSize := 12 + le64 (bs.drop 4)
    if 2147483647 < totalSize then .error .sizeOverflow
    else if bs.length < totalSize then .error .eof
    else .ok (bs.drop totalSize)

/-- discardDirectory64EndLocator: fixed 20 bytes. -/
def discardDirectory64EndLocator (bs : List Nat) : Except GoError (List Nat) :=
  if bs.length < 20 then .error .eof else .ok (bs.drop 20)

theorem discardDirectoryHeaderRecord_length_lt {bs bs1 : List Nat}
    (h : discardDirectoryHeaderRecord bs = .ok bs1) : bs1.length < bs.length := by
  unfold discardDirectoryHeaderRecord at h
  dsimp only at h
  split at h
  · exact absurd h (by simp)
  · split at h
    · exact absurd h (by simp)
    · split at h
      · exact absurd h (by simp)
      · simp only [Except.ok.injEq] at h
        subst h
        simp only [List.length_drop]
        omega

theorem discardDirectory64End_length_lt {bs bs1 : List Nat}
    (h : discardDirectory64End bs = .ok bs1) : bs1.length < bs.length := by
  unfold discardDirectory64End at h
  dsimp only at h
  split at h
  · exact absurd h (by simp)
  · split at h
    · exact absurd h (by simp)
    · split at h
      · exact absurd h (by simp)
      · simp only [Except.ok.injEq] at h
        subst h
        simp only [List.length_drop]
        omega

theorem discardDirectory64EndLocator_length_lt {bs bs1 : List Nat}
    (h : discardDirectory64EndLocator bs = .ok bs1) : bs1.length < bs.length := by
  unfold discardDirectory64EndLocator at h
  split at h
  · exact absurd h (by simp)
  · simp only [Except.ok.injEq] at h
    subst h
    simp only [List.length_drop]
    omega

/-- discardCentralDirectory: loop peeking the next 4-byte signature; directory file
headers and ZIP64 records are discarded and the loop continues; the end record is
discarded and io.EOF — the end-of-archive sentinel — is returned; any other
signature fails with ErrFormat. Returns the error together with the unconsumed
remainder of the stream (unchanged on a failure). -/
def discardCentralDirectory (bs : List Nat) : GoError × List Nat :=
  if bs.length < 4 then (.eof, bs)
  else if le32 bs = directoryHeaderSignature then
    match hrec : discardDirectoryHeaderRecord bs with
    | .error e => (e, bs)
    | .ok bs1 => discardCentralDirectory bs1
  else if le32 bs = directoryEndSignature then
    match discardDirectoryEndRecord bs with
    | .error e => (e, bs)
    | .ok bs1 => (.eof, bs1)
  else if le32 bs = directory64EndSignature then
    match hrec : discardDirectory64End bs with
    | .error e => (e, bs)
    | .ok bs1 => discardCentralDirectory bs1
  else if le32 bs = directory64LocSignature then
    match hrec : discardDirectory64EndLocator bs with
    | .error e => (e, bs)
    | .ok bs1 => discardCentralDirectory bs1
  else (.errFormat, bs)
termination_by bs.length
decreasing_by
  · exact discardDirectoryHeaderRecord_length_lt hrec
  · exact discardDirectory64End_length_lt hrec
  · exact discardDirectory64EndLocator_length_lt hrec

/-! ## Decompressor registry (stolen.go register.go section, reader.go) -/

/-- A decompressor value. The behaviour of the returned readers is irrelevant to the
registry claims; values are compared by identity. null models a nil Decompressor. -/
inductive Dcomp where
  | null
  | store
  | deflate
  | custom (n : Nat)
deriving DecidableEq

/-- The process-wide decompressors sync.Map after the init function has stored the
two built-ins (method 0 = Store, method 8 = Deflate). -/
def initDecompressors : List (Nat × Dcomp) := [(0, .store), (8, .deflate)]

/-- sync.Map.LoadOrStore: returns the updated table and whether the key was already
present (in which case the table is unchanged). -/
def mapLoadOrStore (t : List (Nat × Dcomp)) (k : Nat) (v : Dcomp) :
    List (Nat × Dcomp) × Bool :=
  match t.lookup k with
  | some _ => (t, true)
  | none => (t ++ [(k, v)], false)

/-- The outcome of the package-level RegisterDecompressor: either the updated table
or the panic it raises on a duplicate method id. -/
inductive RegResult where
  | ok (t : List (Nat × Dcomp))
  | panicked
deriving DecidableEq

/-- RegisterDecompressor of stolen.go: LoadOrStore, panicking when the id was
already registered. -/
def RegisterDecompressor (t : List (Nat × Dcomp)) (k : Nat) (v : Dcomp) : RegResult :=
  let p := mapLoadOrStore t k v
  if p.2 then .panicked else .ok p.1

/-- Reader.RegisterDecompressor of reader.go: plain map assignment on the session
map — total, replacing any previous entry for the id. The most recent binding is
first, as List.lookup finds it. -/
def sessionRegister (s : List (Nat × Dcomp)) (k : Nat) (v : Dcomp) : List (Nat × Dcomp) :=
  (k, v) :: s

/-- Reader.decompressor of reader.go: the session map is consulted first; a missing
(or nil) session entry falls back to the process-wide table; a miss there is nil. -/
def readerDecompressor (session global : List (Nat × Dcomp)) (k : Nat) : Dcomp :=
  let d := (session.lookup k).getD .null
  if d = .null then (global.lookup k).getD .null else d

/-- The decompressor lookup Next performs on a fresh Reader (no session overrides)
against the initial process-wide table. -/
def nextDecomp (k : Nat) : Dcomp := readerDecompressor [] initDecompressors k

/-! ## The Next scan loop (reader.go lines 51-91)

Models the signature-scanning portion of Reader.Next, entered once the previous
entry's pipeline has been drained: peek 4 bytes (io.EOF when the input is
exhausted first), dispatch on the signature — a local file header is parsed and the
decompressor looked up (zip.ErrAlgorithm when none is registered), a central
directory header hands over to the skipper, anything else discards one byte and
retries. Returns the result and the unconsumed remainder of the stream. -/

def next (bs : List Nat) : Except GoError FileHeader × List Nat :=
  match bs with
  | [] => (.error .eof, [])
  | b :: rest =>
    if (b :: rest).length < 4 then (.error .eof, b :: rest)
    else if le32 (b :: rest) = fileHeaderSignature then
      match readFileHeader (b :: rest) with
      | .error e => (.error e, b :: rest)
      | .ok (f, rest2) =>
        if nextDecomp f.method = .null then (.error .errAlgorithm, rest2)
        else (.ok f, rest2)
    else if le32 (b :: rest) = directoryHeaderSignature then
      let p := discardCentralDirectory (b :: rest)
      (.error p.1, p.2)
    else next rest

/-! ## Descriptor-bounded view (modelled from the spec)

Modelled from the spec: the descriptorReader type that Reader.Next wraps around
entries with flag 0x8 (reader.go line 84) is not among the source files; only its
construction site is. Section 4.4 of the specification describes it: compressed
bytes are forwarded speculatively while a running CRC32 of the already-produced
decompressed output is tracked; after each chunk the view peeks a fixed trailing
window — 12 bytes, or 16 with the optional 0x08074b50 signature — and accepts an
entry boundary only when the window's declared CRC and declared compressed size
both exactly match the data consumed so far; on acceptance the descriptor values
are written into the entry metadata. Here rc n abstracts the tracked running CRC32
after n consumed compressed bytes, and the scan checks every candidate boundary. -/

/-- Modelled from the spec: the trailing-window match at one candidate boundary.
count is the number of compressed bytes consumed so far; returns the descriptor's
declared (crc, compressed size, uncompressed size) on a match. -/
def descriptorMatch (rc : Nat → Nat) (count : Nat) (bs : List Nat) :
    Option (Nat × Nat × Nat) :=
  if 16 ≤ bs.length ∧ le32 bs = dataDescriptorSignature ∧
      le32 (bs.drop 4) = rc count ∧ le32 (bs.drop 8) = count then
    some (le32 (bs.drop 4), le32 (bs.drop 8), le32 (bs.drop 12))
  else if 12 ≤ bs.length ∧ le32 bs = rc count ∧ le32 (bs.drop 4) = count then
    some (le32 bs, le32 (bs.drop 4), le32 (bs.drop 8))
  else none

/-- Modelled from the spec: the speculative boundary scan — consume bytes one at a
time, checking the trailing window at each position; return the boundary position
and the descriptor's declared values at the first acceptance. -/
def descriptorScan (rc : Nat → Nat) : Nat → List Nat → Option (Nat × Nat × Nat × Nat)
  | count, bs =>
    match descriptorMatch rc count bs with
    | some (c, cs, us) => some (count, c, cs, us)
    | none =>
      match bs with
      | [] => none
      | _ :: rest => descriptorScan rc (count + 1) rest

/-- Modelled from the spec: on acceptance the descriptor's values are written into
the entry metadata before end-of-entry is signaled. -/
def applyDescriptor (f : FileHeader) (c cs us : Nat) : FileHeader :=
  { f with crc32 := c, compressedSize64 := cs, uncompressedSize64 := us }

/-! ## A local file header laid out as bytes

mkLFH serializes the 30 fixed bytes of a local file header (signature included,
fields little-endian) followed by the name and extra bytes, for stating theorems
about readFileHeader over arbitrary field values. -/

def mkLFH (version flags method modTime modDate crc csize usize : Nat)
    (name extra : List Nat) : List Nat :=
  0x50 :: 0x4B :: 0x03 :: 0x04 ::
  version % 256 :: version / 256 % 256 ::
  flags % 256 :: flags / 256 % 256 ::
  method % 256 :: method / 256 % 256 ::
  modTime % 256 :: modTime / 256 % 256 ::
  modDate % 256 :: modDate / 256 % 256 ::
  crc % 256 :: crc / 256 % 256 :: crc / 65536 % 256 :: crc / 16777216 % 256 ::
  csize % 256 :: csize / 256 % 256 :: csize / 65536 % 256 :: csize / 16777216 % 256 ::
  usize % 256 :: usize / 256 % 256 :: usize / 65536 % 256 :: usize / 16777216 % 256 ::
  name.length % 256 :: name.length / 256 % 256 ::
  extra.length % 256 :: extra.length / 256 % 256 ::
  (name ++ extra)

/-- How readFileHeader decodes a header serialized by mkLFH: the fixed fields read
back, the name and extra split off, and the outcome decided by the extras walk and
the deferred-compressed-size check. -/
theorem readFileHeader_mkLFH (version flags method modTime modDate crc csize usize : Nat)
    (name extra tail : List Nat)
    (hver : version < 65536) (hfl : flags < 65536) (hm : method < 65536)
    (hmt : modTime < 65536) (hmd : modDate < 65536)
    (hcrc : crc < 4294967296) (hcs : csize < 4294967296) (hus : usize < 4294967296)
    (hn : name.length < 65536) (he : extra.length < 65536) :
    readFileHeader (mkLFH version flags method modTime modDate crc csize usize name extra ++ tail) =
      match parseExtras extra
          { u64 := usize, c64 := csize,
            needU := decide (usize = 4294967295), needC := decide (csize = 4294967295),
            modNs := zeroTimeNs } with
      | .error e => .error e
      | .ok st =>
        if st.needC then .error .errFormat
        else
          .ok ({ readerVersion := version, flags := flags, method := method,
                 modifiedTime := modTime, modifiedDate := modDate, crc32 := crc,
                 compressedSize := csize, uncompressedSize := usize,
                 compressedSize64 := st.c64, uncompressedSize64 := st.u64,
                 name := name, extra := extra, nonUTF8 := nonUTF8Of name flags,
                 modified := resolveModified modDate modTime st.modNs }, tail) := by
  have hlen : (mkLFH version flags method modTime modDate crc csize usize name extra ++ tail).length
      = 30 + name.length + extra.length + tail.length := by
    simp [mkLFH]
    omega
  have hsig : le32 (mkLFH version flags method modTime modDate crc csize usize name extra ++ tail)
      = fileHeaderSignature := by
    have h : le32 (mkLFH version flags method modTime modDate crc csize usize name extra ++ tail)
        = 0x50 + 256 * 0x4B + 65536 * 0x03 + 16777216 * 0x04 := rfl
    rw [h]
    norm_num [fileHeaderSignature]
  have hfver : le16 ((mkLFH version flags method modTime modDate crc csize usize name extra ++ tail).drop 4)
      = version := by
    have h : le16 ((mkLFH version flags method modTime modDate crc csize usize name extra ++ tail).drop 4)
        = version % 256 + 256 * (version / 256 % 256) := rfl
    omega
  have hffl : le16 ((mkLFH version flags method modTime modDate crc csize usize name extra ++ tail).drop 6)
      = flags := by
    have h : le16 ((mkLFH version flags method modTime modDate crc csize usize name extra ++ tail).drop 6)
        = flags % 256 + 256 * (flags / 256 % 256) := rfl
    omega
  have hfm : le16 ((mkLFH version flags method modTime modDate crc csize usize name extra ++ tail).drop 8)
      = method := by
    have h : le16 ((mkLFH version flags method modTime modDate crc csize usize name extra ++ tail).drop 8)
        = method % 256 + 256 * (method / 256 % 256) := rfl
    omega
  have hfmt : le16 ((mkLFH version flags method modTime modDate crc csize usize name extra ++ tail).drop 10)
      = modTime := by
    have h : le16 ((mkLFH version flags method modTime modDate crc csize usize name extra ++ tail).drop 10)
        = modTime % 256 + 256 * (modTime / 256 % 256) := rfl
    omega
  have hfmd : le16 ((mkLFH version flags method modTime modDate crc csize usize name extra ++ tail).drop 12)
      = modDate := by
    have h : le16 ((mkLFH version flags method modTime modDate crc csize usize name extra ++ tail).drop 12)
        = modDate % 256 + 256 * (modDate / 256 % 256) := rfl
    omega
  have hfcrc : le32 ((mkLFH version flags method modTime modDate crc csize usize name extra ++ tail).drop 14)
      = crc := by
    have h : le32 ((mkLFH version flags method modTime modDate crc csize usize name extra ++ tail).drop 14)
        = crc % 256 + 256 * (crc / 256 % 256) + 65536 * (crc / 65536 % 256)
          + 16777216 * (crc / 16777216 % 256) := rfl
    omega
  have hfcs : le32 ((mkLFH version flags method modTime modDate crc csize usize name extra ++ tail).drop 18)
      = csize := by
    have h : le32 ((mkLFH version flags method modTime modDate crc csize usize name extra ++ tail).drop 18)
        = csize % 256 + 256 * (csize / 256 % 256) + 65536 * (csize / 65536 % 256)
          + 16777216 * (csize / 16777216 % 256) := rfl
    omega
  have hfus : le32 ((mkLFH version flags method modTime modDate crc csize usize name extra ++ tail).drop 22)
      = usize := by
    have h : le32 ((mkLFH version flags method modTime modDate crc csize usize name extra ++ tail).drop 22)
        = usize % 256 + 256 * (usize / 256 % 256) + 65536 * (usize / 65536 % 256)
          + 16777216 * (usize / 16777216 % 256) := rfl
    omega
  have hfn : le16 ((mkLFH version flags method modTime modDate crc csize usize name extra ++ tail).drop 26)
      = name.length := by
    have h : le16 ((mkLFH version flags method modTime modDate crc csize usize name extra ++ tail).drop 26)
        = name.length % 256 + 256 * (name.length / 256 % 256) := rfl
    omega
  have hfe : le16 ((mkLFH version flags method modTime modDate crc csize usize name extra ++ tail).drop 28)
      = extra.length := by
    have h : le16 ((mkLFH version flags method modTime modDate crc csize usize name extra ++ tail).drop 28)
        = extra.length % 256 + 256 * (extra.length / 256 % 256) := rfl
    omega
  have hrest : (mkLFH version flags method modTime modDate crc csize usize name extra ++ tail).drop 30
      = name ++ (extra ++ tail) := by
    have h : (mkLFH version flags method modTime modDate crc csize usize name extra ++ tail).drop 30
        = (name ++ extra) ++ tail := rfl
    rw [h, List.append_assoc]
  unfold readFileHeader
  rw [if_neg (by omega)]
  rw [if_neg (by simp [hsig])]
  dsimp only
  rw [hfver, hffl, hfm, hfmt, hfmd, hfcrc, hfcs, hfus, hfn, hfe, hrest]
  rw [if_neg (by simp only [List.length_append]; omega)]
  rw [List.take_left, List.drop_left]
  rw [show (extra ++ tail).take extra.length = extra from List.take_left extra tail]
  rw [show (name ++ (extra ++ tail)).drop (name.length + extra.length) = tail by
    rw [← List.append_assoc, ← List.length_append]
    exact List.drop_left (name ++ extra) tail]

/-! ## Helper lemmas about the byte readers -/

theorem byteAt_nil (i : Nat) : byteAt [] i = 0 := rfl

theorem byteAt_cons_zero (b : Nat) (t : List Nat) : byteAt (b :: t) 0 = b := rfl

theorem byteAt_cons_succ (b : Nat) (t : List Nat) (i : Nat) :
    byteAt (b :: t) (i + 1) = byteAt t i := rfl

theorem byteAt_append {l1 : List Nat} (l2 : List Nat) {i : Nat} (h : i < l1.length) :
    byteAt (l1 ++ l2) i = byteAt l1 i := by
  induction l1 generalizing i with
  | nil => simp at h
  | cons a t ih =>
    cases i with
    | zero => rfl
    | succ j =>
      rw [List.cons_append, byteAt_cons_succ, byteAt_cons_succ]
      exact ih (by simpa using h)

theorem le16_append {l1 : List Nat} (l2 : List Nat) (h : 2 ≤ l1.length) :
    le16 (l1 ++ l2) = le16 l1 := by
  unfold le16
  rw [byteAt_append l2 (by omega), byteAt_append l2 (by omega)]

theorem le32_append {l1 : List Nat} (l2 : List Nat) (h : 4 ≤ l1.length) :
    le32 (l1 ++ l2) = le32 l1 := by
  unfold le32
  rw [byteAt_append l2 (by omega), byteAt_append l2 (by omega),
    byteAt_append l2 (by omega), byteAt_append l2 (by omega)]

/-! ## Shape predicates for central-directory records

A byte block is a directory file header record when it opens with the directory
header signature and its total length is the 46 fixed bytes plus the name, extra
and comment lengths declared at offsets 28, 30 and 32; an end-of-central-directory
record is its 22 fixed bytes plus the comment length declared at offset 20. -/

def dirHeaderRecOK (r : List Nat) : Bool :=
  decide (46 ≤ r.length) && decide (le32 r = directoryHeaderSignature) &&
  decide (r.length = 46 + le16 (r.drop 28) + le16 (r.drop 30) + le16 (r.drop 32))

def endRecOK (r : List Nat) : Bool :=
  decide (22 ≤ r.length) && decide (le32 r = directoryEndSignature) &&
  decide (r.length = 22 + le16 (r.drop 20))

theorem discardDirectoryHeaderRecord_append {r : List Nat} (x : List Nat)
    (h : dirHeaderRecOK r = true) : discardDirectoryHeaderRecord (r ++ x) = .ok x := by
  simp only [dirHeaderRecOK, Bool.and_eq_true, decide_eq_true_eq] at h
  obtain ⟨⟨h46, _⟩, hlen⟩ := h
  have hd28 : (r ++ x).drop 28 = r.drop 28 ++ x := List.drop_append_of_le_length (by omega)
  have hl28 : (r.drop 28).length = r.length - 28 := List.length_drop 28 r
  have e0 : le16 (r.drop 28 ++ x) = le16 (r.drop 28) := le16_append x (by omega)
  have e2 : le16 ((r.drop 28 ++ x).drop 2) = le16 (r.drop 30) := by
    rw [List.drop_append_of_le_length (by omega), List.drop_drop]
    exact le16_append x (by simp only [List.length_drop]; omega)
  have e4 : le16 ((r.drop 28 ++ x).drop 4) = le16 (r.drop 32) := by
    rw [List.drop_append_of_le_length (by omega), List.drop_drop]
    exact le16_append x (by simp only [List.length_drop]; omega)
  unfold discardDirectoryHeaderRecord
  rw [if_neg (by simp only [List.length_append]; omega)]
  dsimp only
  rw [hd28, e0, e2, e4]
  rw [if_neg (by simp only [List.length_append, List.length_drop]; omega)]
  rw [if_neg (by simp only [List.length_append, List.length_drop]; omega)]
  rw [show r.drop 28 ++ x = (r.drop 28) ++ x from rfl]
  rw [show 18 + (le16 (r.drop 28) + le16 (r.drop 30) + le16 (r.drop 32)) = (r.drop 28).length by
    simp only [List.length_drop]; omega]
  rw [List.drop_left]

theorem discardDirectoryEndRecord_append {r : List Nat} (x : List Nat)
    (h : endRecOK r = true) : discardDirectoryEndRecord (r ++ x) = .ok x := by
  simp only [endRecOK, Bool.and_eq_true, decide_eq_true_eq] at h
  obtain ⟨⟨h22, _⟩, hlen⟩ := h
  have hd20 : (r ++ x).drop 20 = r.drop 20 ++ x := List.drop_append_of_le_length (by omega)
  have e0 : le16 (r.drop 20 ++ x) = le16 (r.drop 20) := le16_append x (by simp only [List.length_drop]; omega)
  unfold discardDirectoryEndRecord
  rw [if_neg (by simp only [List.length_append]; omega)]
  dsimp only
  rw [hd20, e0]
  rw [if_neg (by simp only [List.length_append, List.length_drop]; omega)]
  rw [if_neg (by simp only [List.length_append, List.length_drop]; omega)]
  rw [show 2 + le16 (r.drop 20) = (r.drop 20).length by simp only [List.length_drop]; omega]
  rw [List.drop_left]

theorem dcd_dirHeaderRec {r : List Nat} (x : List Nat) (h : dirHeaderRecOK r = true) :
    discardCentralDirectory (r ++ x) = discardCentralDirectory x := by
  simp only [dirHeaderRecOK, Bool.and_eq_true, decide_eq_true_eq] at h
  obtain ⟨⟨h46, hsig⟩, _⟩ := h
  have hs : le32 (r ++ x) = directoryHeaderSignature := by
    rw [le32_append x (by omega)]; exact hsig
  conv_lhs => rw [discardCentralDirectory]
  rw [if_neg (by simp only [List.length_append]; omega)]
  rw [if_pos hs]
  rw [discardDirectoryHeaderRecord_append x (by
    simp only [dirHeaderRecOK, Bool.and_eq_true, decide_eq_true_eq]
    exact ⟨⟨h46, hsig⟩, by assumption⟩)]

theorem dcd_endRec {r : List Nat} (x : List Nat) (h : endRecOK r = true) :
    discardCentralDirectory (r ++ x) = (.eof, x) := by
  simp only [endRecOK, Bool.and_eq_true, decide_eq_true_eq] at h
  obtain ⟨⟨h22, hsig⟩, _⟩ := h
  have hs : le32 (r ++ x) = directoryEndSignature := by
    rw [le32_append x (by omega)]; exact hsig
  unfold discardCentralDirectory
  rw [if_neg (by simp only [List.length_append]; omega)]
  rw [if_neg (by rw [hs]; decide)]
  rw [if_pos hs]
  rw [discardDirectoryEndRecord_append x (by
    simp only [endRecOK, Bool.and_eq_true, decide_eq_true_eq]
    exact ⟨⟨h22, hsig⟩, by assumption⟩)]

/-- Skipping a whole central directory: any sequence of directory file header
records followed by the end record consumes exactly those bytes and returns the
io.EOF sentinel, leaving the remainder untouched. -/
theorem dcd_directory (recs : List (List Nat)) (e rest : List Nat)
    (hr : ∀ r ∈ recs, dirHeaderRecOK r = true) (he : endRecOK e = true) :
    discardCentralDirectory (recs.flatten ++ (e ++ rest)) = (.eof, rest) := by
  induction recs with
  | nil =>
    simp only [List.flatten_nil, List.nil_append]
    exact dcd_endRec rest he
  | cons r rs ih =>
    simp only [List.flatten_cons, List.append_assoc]
    rw [dcd_dirHeaderRec _ (hr r (by simp))]
    exact ih (fun r' hm => hr r' (by simp [hm]))

/-! ## Inversion and dispatch lemmas for Next -/

theorem readFileHeader_ok_inv {bs : List Nat} {f : FileHeader} {rest : List Nat}
    (hok : readFileHeader bs = .ok (f, rest)) :
    30 ≤ bs.length ∧ le32 bs = fileHeaderSignature := by
  unfold readFileHeader at hok
  split at hok
  · exact absurd hok (by simp)
  · split at hok
    · exact absurd hok (by simp)
    · constructor
      · omega
      · by_contra hne
        simp_all

/-- Next positioned exactly at a parseable local file header whose method has a
registered decompressor returns that header and leaves the remainder. -/
theorem next_parses {bs : List Nat} {f : FileHeader} {rest : List Nat}
    (hok : readFileHeader bs = .ok (f, rest)) (hd : nextDecomp f.method ≠ .null) :
    next bs = (.ok f, rest) := by
  obtain ⟨hlen, hsig⟩ := readFileHeader_ok_inv hok
  cases bs with
  | nil => simp at hlen
  | cons b t =>
    unfold next
    rw [if_neg (by simp only [List.length_cons] at hlen ⊢; omega)]
    rw [if_pos hsig]
    rw [hok]
    dsimp only
    rw [if_neg hd]

/-- Next positioned at a central-directory header signature hands the stream to the
directory skipper and surfaces its outcome. -/
theorem next_at_directory {bs : List Nat} (h4 : 4 ≤ bs.length)
    (hsig : le32 bs = directoryHeaderSignature) :
    next bs = (.error (discardCentralDirectory bs).1, (discardCentralDirectory bs).2) := by
  cases bs with
  | nil => simp at h4
  | cons b t =>
    unfold next
    rw [if_neg (by simp only [List.length_cons] at h4 ⊢; omega)]
    rw [if_neg (by simp [hsig, directoryHeaderSignature, fileHeaderSignature])]
    rw [if_pos hsig]

/-- The minimal local file header: every numeric field zero, no name, no extra. -/
def zeroLFH : List Nat := mkLFH 0 0 0 0 0 0 0 0 [] []

/-- The FileHeader that readFileHeader produces for zeroLFH: method 0 (Store), DOS
date and time both zero decoding to 1979-11-30 00:00:00 UTC. -/
def zeroLFHHeader : FileHeader :=
  { readerVersion := 0, flags := 0, method := 0, modifiedTime := 0, modifiedDate := 0,
    crc32 := 0, compressedSize := 0, uncompressedSize := 0,
    compressedSize64 := 0, uncompressedSize64 := 0, name := [], extra := [],
    nonUTF8 := false, modified := { ns := 312768000000000000, offset := 0, isUTC := true } }

/-! ## Claim theorems -/

/-- C10: while skipping the central directory, any 4-byte signature other than the
four directory-record signatures — the local-file-header signature and arbitrary
noise included — fails the skip immediately with FormatError, consuming nothing;
no byte-by-byte noise tolerance applies inside the directory region. -/
theorem c10_directory_skip_rejects_foreign_signatures (bs : List Nat)
    (h4 : 4 ≤ bs.length)
    (h1 : le32 bs ≠ directoryHeaderSignature)
    (h2 : le32 bs ≠ directoryEndSignature)
    (h3 : le32 bs ≠ directory64EndSignature)
    (h5 : le32 bs ≠ directory64LocSignature) :
    discardCentralDirectory bs = (.errFormat, bs) := by
  unfold discardCentralDirectory
  rw [if_neg (by omega), if_neg h1, if_neg h2, if_neg h3, if_neg h5]

/-- Witness for C10: a local-file-header signature inside the directory region is
rejected with FormatError on the spot. -/
theorem c10_witness :
    le32 [0x50, 0x4B, 0x03, 0x04] = fileHeaderSignature ∧
    discardCentralDirectory [0x50, 0x4B, 0x03, 0x04] =
      (.errFormat, [0x50, 0x4B, 0x03, 0x04]) :=
  ⟨by decide,
   c10_directory_skip_rejects_foreign_signatures _ (by decide) (by decide) (by decide)
     (by decide) (by decide)⟩

/-- C9: process-wide registration of a method id that already has a decompressor —
the built-ins 0 and 8 included — panics and leaves the table unchanged; session
registration on a Reader is total, the last write for an id wins, a non-nil session
entry is consulted before the process-wide table, and a Reader whose session map
has no entry for the id falls back to the process-wide table. -/
theorem c9_registry :
    (∀ (t : List (Nat × Dcomp)) (k : Nat) (v d : Dcomp), t.lookup k = some d →
      RegisterDecompressor t k v = .panicked ∧ (mapLoadOrStore t k v).1 = t) ∧
    (∀ v : Dcomp, RegisterDecompressor initDecompressors 0 v = .panicked ∧
      RegisterDecompressor initDecompressors 8 v = .panicked) ∧
    (∀ (s : List (Nat × Dcomp)) (k : Nat) (v1 v2 : Dcomp) (g : List (Nat × Dcomp)),
      v2 ≠ Dcomp.null →
      readerDecompressor (sessionRegister (sessionRegister s k v1) k v2) g k = v2) ∧
    (∀ (s g : List (Nat × Dcomp)) (k : Nat) (v : Dcomp), v ≠ Dcomp.null →
      readerDecompressor (sessionRegister s k v) g k = v) ∧
    (∀ (s2 g : List (Nat × Dcomp)) (k : Nat), s2.lookup k = none →
      readerDecompressor s2 g k = (g.lookup k).getD .null) := by
  refine ⟨?_, ?_, ?_, ?_, ?_⟩
  · intro t k v d h
    unfold RegisterDecompressor mapLoadOrStore
    rw [h]
    exact ⟨rfl, rfl⟩
  · intro v
    constructor <;> rfl
  · intro s k v1 v2 g hv2
    unfold readerDecompressor sessionRegister
    simp only [List.lookup_cons_self, Option.getD_some]
    rw [if_neg hv2]
  · intro s g k v hv
    unfold readerDecompressor sessionRegister
    simp only [List.lookup_cons_self, Option.getD_some]
    rw [if_neg hv]
  · intro s2 g k h
    unfold readerDecompressor
    rw [h]
    rfl

/-- Witness for C9: registering method 0 again panics without touching the table; a
session override registered twice resolves to the second value; a fresh session
falls through to the built-in Deflate entry. -/
theorem c9_registry_witness :
    (RegisterDecompressor initDecompressors 0 (.custom 1) = .panicked ∧
      (mapLoadOrStore initDecompressors 0 (.custom 1)).1 = initDecompressors) ∧
    (RegisterDecompressor initDecompressors 0 (.custom 9) = .panicked ∧
      RegisterDecompressor initDecompressors 8 (.custom 9) = .panicked) ∧
    readerDecompressor (sessionRegister (sessionRegister [] 5 (.custom 1)) 5 (.custom 2))
      initDecompressors 5 = .custom 2 ∧
    readerDecompressor (sessionRegister [] 8 (.custom 3)) initDecompressors 8 = .custom 3 ∧
    readerDecompressor [] initDecompressors 8 = (initDecompressors.lookup 8).getD .null :=
  ⟨c9_registry.1 initDecompressors 0 (.custom 1) .store (by decide),
   c9_registry.2.1 (.custom 9),
   c9_registry.2.2.1 [] 5 (.custom 1) (.custom 2) initDecompressors (by decide),
   c9_registry.2.2.2.1 [] initDecompressors 8 (.custom 3) (by decide),
   c9_registry.2.2.2.2 [] initDecompressors 8 rfl⟩

theorem descriptorMatch_some {rc : Nat → Nat} {count : Nat} {bs : List Nat}
    {c cs us : Nat} (h : descriptorMatch rc count bs = some (c, cs, us)) :
    c = rc count ∧ cs = count := by
  unfold descriptorMatch at h
  split at h
  · rename_i hcond
    obtain ⟨-, -, h1, h2⟩ := hcond
    simp only [Option.some.injEq, Prod.mk.injEq] at h
    exact ⟨h.1 ▸ h1, h.2.1 ▸ h2⟩
  · split at h
    · rename_i hcond
      obtain ⟨-, h1, h2⟩ := hcond
      simp only [Option.some.injEq, Prod.mk.injEq] at h
      exact ⟨h.1 ▸ h1, h.2.1 ▸ h2⟩
    · exact absurd h (by simp)

/-- C2 (spec-modelled: the descriptorReader source file is absent from src/): the
descriptor-bounded view accepts an entry boundary only at a position where the
trailing window's declared CRC32 and declared compressed size exactly match the
running CRC and the count of bytes consumed so far — with or without the optional
descriptor signature — and on acceptance the metadata's CRC32 and sizes take the
descriptor's values. -/
theorem c2_descriptor_boundary (rc : Nat → Nat) (count n c cs us : Nat) (bs : List Nat)
    (h : descriptorScan rc count bs = some (n, c, cs, us)) :
    count ≤ n ∧ c = rc n ∧ cs = n ∧
    descriptorMatch rc n (bs.drop (n - count)) = some (c, cs, us) ∧
    ∀ f : FileHeader, (applyDescriptor f c cs us).crc32 = rc n ∧
      (applyDescriptor f c cs us).compressedSize64 = n ∧
      (applyDescriptor f c cs us).uncompressedSize64 = us := by
  induction bs generalizing count with
  | nil =>
    rw [descriptorScan] at h
    cases hm : descriptorMatch rc count [] with
    | some v =>
      exact absurd hm (by unfold descriptorMatch; simp)
    | none =>
      rw [hm] at h
      exact absurd h (by simp)
  | cons b t ih =>
    rw [descriptorScan] at h
    cases hm : descriptorMatch rc count (b :: t) with
    | some v =>
      rw [hm] at h
      obtain ⟨v1, v2, v3⟩ := v
      simp only [Option.some.injEq, Prod.mk.injEq] at h
      obtain ⟨hn, hc, hcs, hus⟩ := h
      subst hn hc hcs hus
      obtain ⟨h1, h2⟩ := descriptorMatch_some hm
      refine ⟨le_refl _, h1, h2, ?_, ?_⟩
      · simpa using hm
      · intro f
        exact ⟨by simp [applyDescriptor, h1], by simp [applyDescriptor, h2], by simp [applyDescriptor]⟩
    | none =>
      rw [hm] at h
      have := ih (count + 1) h
      obtain ⟨hle, h1, h2, h3, h4⟩ := this
      refine ⟨by omega, h1, h2, ?_, h4⟩
      have : n - count = (n - (count + 1)) + 1 := by omega
      rw [this, List.drop_succ_cons]
      exact h3

/-- Witness for C2: a 12-byte trailing window without the optional signature whose
declared CRC matches the running CRC and whose declared size matches the zero bytes
consumed is accepted at once, and the metadata takes its values. -/
theorem c2_descriptor_boundary_witness :
    descriptorScan (fun _ => 5) 0 [5, 0, 0, 0, 0, 0, 0, 0, 7, 0, 0, 0] = some (0, 5, 0, 7) ∧
    5 = (fun _ : Nat => 5) 0 ∧ (0 : Nat) = 0 ∧
    (applyDescriptor zeroLFHHeader 5 0 7).crc32 = 5 ∧
    (applyDescriptor zeroLFHHeader 5 0 7).compressedSize64 = 0 ∧
    (applyDescriptor zeroLFHHeader 5 0 7).uncompressedSize64 = 7 := by
  have hscan : descriptorScan (fun _ => 5) 0 [5, 0, 0, 0, 0, 0, 0, 0, 7, 0, 0, 0]
      = some (0, 5, 0, 7) := by decide
  have h := c2_descriptor_boundary (fun _ => 5) 0 0 5 0 7 _ hscan
  exact ⟨hscan, h.2.1, h.2.2.1, h.2.2.2.2 zeroLFHHeader⟩

/-- C3: the central-directory skip consumes exactly the directory's bytes — each
directory file header record its 46 fixed bytes plus name, extra and comment
lengths, the end record its fixed bytes plus its declared comment length — and
signals end-of-archive as the io.EOF sentinel; for two archives back-to-back, the
Next call after the first archive's end-of-archive parses the second archive's
first entry. -/
theorem c3_directory_skip_and_concatenation
    (recs : List (List Nat)) (endr rest tail : List Nat) (f : FileHeader)
    (hne : recs ≠ [])
    (hr : ∀ r ∈ recs, dirHeaderRecOK r = true)
    (he : endRecOK endr = true)
    (hok : readFileHeader rest = .ok (f, tail))
    (hd : nextDecomp f.method ≠ .null) :
    next (recs.flatten ++ (endr ++ rest)) = (.error .eof, rest) ∧
    next rest = (.ok f, tail) := by
  constructor
  · obtain ⟨r, rs, rfl⟩ := List.exists_cons_of_ne_nil hne
    have hrOK := hr r (by simp)
    simp only [dirHeaderRecOK, Bool.and_eq_true, decide_eq_true_eq] at hrOK
    obtain ⟨⟨h46, hsg⟩, -⟩ := hrOK
    have hshape : (r :: rs).flatten ++ (endr ++ rest) = r ++ (rs.flatten ++ (endr ++ rest)) := by
      simp [List.flatten_cons, List.append_assoc]
    have h4 : 4 ≤ ((r :: rs).flatten ++ (endr ++ rest)).length := by
      rw [hshape]
      simp only [List.length_append]
      omega
    have hsig : le32 ((r :: rs).flatten ++ (endr ++ rest)) = directoryHeaderSignature := by
      rw [hshape, le32_append _ (by omega)]
      exact hsg
    rw [next_at_directory h4 hsig]
    rw [dcd_directory (r :: rs) endr rest hr he]
  · exact next_parses hok hd

theorem readFileHeader_zeroLFH : readFileHeader (zeroLFH ++ []) = .ok (zeroLFHHeader, []) := by
  rw [show zeroLFH ++ [] = mkLFH 0 0 0 0 0 0 0 0 [] [] ++ [] from rfl]
  rw [readFileHeader_mkLFH 0 0 0 0 0 0 0 0 [] [] []
    (by decide) (by decide) (by decide) (by decide) (by decide)
    (by decide) (by decide) (by decide) (by decide) (by decide)]
  rw [show parseExtras []
      { u64 := 0, c64 := 0, needU := decide ((0 : Nat) = 4294967295),
        needC := decide ((0 : Nat) = 4294967295), modNs := zeroTimeNs }
    = .ok { u64 := 0, c64 := 0, needU := false, needC := false, modNs := zeroTimeNs } by
      rw [parseExtras]
      simp]
  simp only []
  rw [if_neg (by decide)]
  rw [show nonUTF8Of [] 0 = false by simp [nonUTF8Of, detectUTF8]]
  rw [show resolveModified 0 0 zeroTimeNs = { ns := 312768000000000000, offset := 0, isUTC := true } by
    unfold resolveModified
    rw [if_pos rfl]
    decide]
  rfl

/-- Witness for C3: one 46-byte directory file header record and a 22-byte end
record are skipped exactly, end-of-archive is the io.EOF sentinel, and the
minimal local file header of a following concatenated archive parses. -/
theorem c3_witness :
    next (([([0x50, 0x4B, 0x01, 0x02] ++ List.replicate 42 0)].flatten ++
      (([0x50, 0x4B, 0x05, 0x06] ++ List.replicate 18 0) ++ (zeroLFH ++ [])))) =
      (.error .eof, zeroLFH ++ []) ∧
    next (zeroLFH ++ []) = (.ok zeroLFHHeader, []) :=
  c3_directory_skip_and_concatenation
    [([0x50, 0x4B, 0x01, 0x02] ++ List.replicate 42 0)]
    ([0x50, 0x4B, 0x05, 0x06] ++ List.replicate 18 0)
    (zeroLFH ++ []) [] zeroLFHHeader
    (by decide)
    (by intro r hrm; simp only [List.mem_singleton] at hrm; subst hrm; decide)
    (by decide)
    readFileHeader_zeroLFH
    (by decide)

/-- C4 counterexample: the end-of-archive sentinel Next returns after a complete
central directory is io.EOF, and Next on an input exhausted before any signature —
the empty input — returns the very same io.EOF, so the two outcomes are not
distinct. -/
theorem c4_counterexample :
    (next []).1 = Except.error GoError.eof ∧
    next (([0x50, 0x4B, 0x01, 0x02] ++ List.replicate 42 0) ++
      (([0x50, 0x4B, 0x05, 0x06] ++ List.replicate 18 0) ++ [])) =
      (Except.error GoError.eof, []) := by
  constructor
  · rfl
  · have h4 : 4 ≤ (([0x50, 0x4B, 0x01, 0x02] ++ List.replicate 42 0) ++
        (([0x50, 0x4B, 0x05, 0x06] ++ List.replicate 18 0) ++ [])).length := by decide
    have hsig : le32 (([0x50, 0x4B, 0x01, 0x02] ++ List.replicate 42 0) ++
        (([0x50, 0x4B, 0x05, 0x06] ++ List.replicate 18 0) ++ [])) =
        directoryHeaderSignature := by decide
    rw [next_at_directory h4 hsig]
    rw [dcd_dirHeaderRec _ (by decide), dcd_endRec _ (by decide)]

/-- C4 (amended): after a complete central directory Next returns the io.EOF
sentinel, and on every input that is exhausted before a local-file-header or
directory signature appears Next returns the same io.EOF — premature exhaustion at
the signature-scanning stage is not distinguishable from end-of-archive (only a
failure after a signature, io.ErrUnexpectedEOF or ErrFormat, is distinct). -/
theorem c4_amended_exhaustion_is_eof (bs : List Nat)
    (h : ∀ i : Nat, le32 (bs.drop i) ≠ fileHeaderSignature ∧
      le32 (bs.drop i) ≠ directoryHeaderSignature) :
    (next bs).1 = .error .eof := by
  induction bs with
  | nil => rfl
  | cons b t ih =>
    unfold next
    by_cases hlt : (b :: t).length < 4
    · rw [if_pos hlt]
    · rw [if_neg hlt]
      rw [if_neg (by simpa using (h 0).1)]
      rw [if_neg (by simpa using (h 0).2)]
      exact ih fun i => by simpa using h (i + 1)

/-- Witness for C4's amended theorem: five zero bytes hold no signature anywhere,
and Next on them returns io.EOF. -/
theorem c4_amended_witness : (next [0, 0, 0, 0, 0]).1 = .error .eof :=
  c4_amended_exhaustion_is_eof [0, 0, 0, 0, 0] (by
    intro i
    match i with
    | 0 => exact ⟨by decide, by decide⟩
    | 1 => exact ⟨by decide, by decide⟩
    | 2 => exact ⟨by decide, by decide⟩
    | 3 => exact ⟨by decide, by decide⟩
    | 4 => exact ⟨by decide, by decide⟩
    | n + 5 =>
      rw [show ([0, 0, 0, 0, 0] : List Nat).drop (n + 5) = [] from List.drop_eq_nil_of_le (by simp)]
      exact ⟨by decide, by decide⟩)

/-- C5: K arbitrary bytes none of whose 4-byte windows at the K scanned positions
form a local-file-header or central-directory signature, followed by a parseable
local file header, are skipped one byte at a time; Next then parses the header,
returning its metadata and consuming exactly K bytes plus the header's 30 fixed
bytes plus its name and extra lengths. -/
theorem c5_garbage_preamble (junk hb tail : List Nat) (f : FileHeader)
    (hwin : ∀ i ∈ List.range junk.length,
      le32 ((junk ++ (hb ++ tail)).drop i) ≠ fileHeaderSignature ∧
      le32 ((junk ++ (hb ++ tail)).drop i) ≠ directoryHeaderSignature)
    (hok : readFileHeader (hb ++ tail) = .ok (f, tail))
    (hlen : hb.length = 30 + f.name.length + f.extra.length)
    (hd : nextDecomp f.method ≠ .null) :
    next (junk ++ (hb ++ tail)) = (.ok f, tail) ∧
    (junk ++ (hb ++ tail)).length =
      (junk.length + (30 + f.name.length + f.extra.length)) + tail.length := by
  constructor
  · induction junk with
    | nil => simpa using next_parses hok hd
    | cons b js ih =>
      have h30 : 30 ≤ (hb ++ tail).length := (readFileHeader_ok_inv hok).1
      rw [List.cons_append]
      unfold next
      rw [if_neg (by simp only [List.length_cons, List.length_append] at h30 ⊢; omega)]
      rw [if_neg (by simpa using (hwin 0 (by simp)).1)]
      rw [if_neg (by simpa using (hwin 0 (by simp)).2)]
      exact ih fun i hi => by
        simpa using hwin (i + 1) (by simp only [List.mem_range, List.length_cons] at hi ⊢; omega)
  · simp only [List.length_append]
    omega

/-- Witness for C5: one junk byte before the minimal local file header is skipped
and the header parses, consuming exactly 1 + 30 bytes. -/
theorem c5_witness :
    next ([0] ++ (zeroLFH ++ [])) = (.ok zeroLFHHeader, []) ∧
    (([0] : List Nat) ++ (zeroLFH ++ [])).length =
      ((1 + (30 + zeroLFHHeader.name.length + zeroLFHHeader.extra.length)) + ([] : List Nat).length) :=
  c5_garbage_preamble [0] zeroLFH [] zeroLFHHeader
    (by
      intro i hi
      simp only [List.length_singleton, List.mem_range, Nat.lt_one_iff] at hi
      subst hi
      exact ⟨by decide, by decide⟩)
    readFileHeader_zeroLFH
    (by decide)
    (by decide)

/-! ## Lemmas about the extras walk -/

/-- One extra-field sub-record serialized: tag, declared size (the payload's exact
length), payload. -/
def mkExtraRecord (tag : Nat) (payload : List Nat) : List Nat :=
  tag % 256 :: tag / 256 % 256 :: payload.length % 256 :: payload.length / 256 % 256 :: payload

theorem parseExtras_nil (st : ExtrasState) : parseExtras [] st = .ok st := by
  rw [parseExtras]
  rfl

theorem parseExtras_record (tag : Nat) (payload rest : List Nat) (st : ExtrasState)
    (htag : tag < 65536) (hp : payload.length < 65536) :
    parseExtras (mkExtraRecord tag payload ++ rest) st =
      match processField tag payload st with
      | .error e => .error e
      | .ok st1 => parseExtras rest st1 := by
  have hlen : (mkExtraRecord tag payload ++ rest).length = 4 + payload.length + rest.length := by
    simp [mkExtraRecord]
    omega
  have htag' : le16 (mkExtraRecord tag payload ++ rest) = tag := by
    have h : le16 (mkExtraRecord tag payload ++ rest) = tag % 256 + 256 * (tag / 256 % 256) := rfl
    omega
  have hsize : le16 ((mkExtraRecord tag payload ++ rest).drop 2) = payload.length := by
    have h : le16 ((mkExtraRecord tag payload ++ rest).drop 2)
        = payload.length % 256 + 256 * (payload.length / 256 % 256) := rfl
    omega
  have hdrop : (mkExtraRecord tag payload ++ rest).drop 4 = payload ++ rest := rfl
  rw [parseExtras]
  rw [if_neg (by omega)]
  dsimp only
  rw [htag', hsize, hdrop]
  rw [if_neg (by simp only [List.length_append]; omega)]
  rw [List.take_left, List.drop_left]

/-- A walk over exactly one serialized sub-record is that record's dispatch. -/
theorem parseExtras_single (tag : Nat) (payload : List Nat) (st : ExtrasState)
    (htag : tag < 65536) (hp : payload.length < 65536) :
    parseExtras (mkExtraRecord tag payload) st =
      match processField tag payload st with
      | .error e => .error e
      | .ok st1 => .ok st1 := by
  have h := parseExtras_record tag payload [] st htag hp
  rw [List.append_nil] at h
  rw [h]
  cases processField tag payload st with
  | error e => rfl
  | ok st1 => exact parseExtras_nil st1

/-- The ZIP64 branch of the extras dispatch, written out by state. -/
theorem processField_zip64 (payload : List Nat) (u c : Nat) (nu nc : Bool) (mn : Int) :
    processField zip64ExtraID payload ⟨u, c, nu, nc, mn⟩ =
      if nu then
        if payload.length < 8 then .error .errFormat
        else if nc then
          if (payload.drop 8).length < 8 then .error .errFormat
          else .ok ⟨le64 payload, le64 (payload.drop 8), false, false, mn⟩
        else .ok ⟨le64 payload, c, false, nc, mn⟩
      else if nc then
        if payload.length < 8 then .error .errFormat
        else .ok ⟨u, le64 payload, nu, false, mn⟩
      else .ok ⟨u, c, nu, nc, mn⟩ := by
  unfold processField
  rw [if_pos rfl]

/-- Every non-ZIP64 sub-record leaves the walk state intact except possibly the
modify time, and never fails. -/
theorem processField_not_zip64 (tag : Nat) (fb : List Nat) (st : ExtrasState)
    (htag : tag ≠ zip64ExtraID) :
    ∃ st1, processField tag fb st = .ok st1 ∧ st1.needU = st.needU ∧ st1.needC = st.needC ∧
      st1.u64 = st.u64 ∧ st1.c64 = st.c64 := by
  unfold processField
  rw [if_neg htag]
  split_ifs <;> exact ⟨_, rfl, rfl, rfl, rfl, rfl⟩

/-- A walk that never reaches a ZIP64 record succeeds and leaves the deferred-size
state exactly as it began. -/
theorem parseExtras_no_zip64 (extra : List Nat) (st : ExtrasState)
    (h : extrasHasZip64 extra = false) :
    ∃ st1, parseExtras extra st = .ok st1 ∧ st1.needU = st.needU ∧ st1.needC = st.needC ∧
      st1.u64 = st.u64 ∧ st1.c64 = st.c64 := by
  have H : ∀ (n : Nat) (extra : List Nat), extra.length ≤ n → ∀ st : ExtrasState,
      extrasHasZip64 extra = false →
      ∃ st1, parseExtras extra st = .ok st1 ∧ st1.needU = st.needU ∧ st1.needC = st.needC ∧
        st1.u64 = st.u64 ∧ st1.c64 = st.c64 := by
    intro n
    induction n with
    | zero =>
      intro extra hle st _
      have : extra.length < 4 := by omega
      rw [parseExtras, if_pos this]
      exact ⟨st, rfl, rfl, rfl, rfl, rfl⟩
    | succ k ih =>
      intro extra hle st hz
      by_cases h4 : extra.length < 4
      · rw [parseExtras, if_pos h4]
        exact ⟨st, rfl, rfl, rfl, rfl, rfl⟩
      · rw [extrasHasZip64, if_neg h4] at hz
        by_cases hov : (extra.drop 4).length < le16 (extra.drop 2)
        · rw [parseExtras, if_neg h4]
          dsimp only
          rw [if_pos hov]
          exact ⟨st, rfl, rfl, rfl, rfl, rfl⟩
        · rw [if_neg hov] at hz
          have htag : le16 extra ≠ zip64ExtraID := by
            intro hc
            rw [if_pos hc] at hz
            exact absurd hz (by simp)
          rw [if_neg htag] at hz
          obtain ⟨st1, hpf, e1, e2, e3, e4⟩ :=
            processField_not_zip64 (le16 extra) ((extra.drop 4).take (le16 (extra.drop 2))) st htag
          rw [parseExtras, if_neg h4]
          dsimp only
          rw [if_neg hov, hpf]
          obtain ⟨st2, hrec, f1, f2, f3, f4⟩ := ih ((extra.drop 4).drop (le16 (extra.drop 2)))
            (by simp only [List.length_drop]; omega) st1 hz
          exact ⟨st2, hrec, f1.trans e1, f2.trans e2, f3.trans e3, f4.trans e4⟩
  exact H extra.length extra (le_refl _) st h

/-- C1: a ZIP64 extra resolves a deferred 32-bit size to the 64-bit value it
supplies — the uncompressed size from the first 8 payload bytes, the compressed
size from the next deferred position — with each replaced field requiring at least
8 remaining payload bytes, else the parse fails with FormatError; and a deferred
compressed size that no ZIP64 extra resolves fails the parse with FormatError. -/
theorem c1_zip64_deferred_sizes (version flags method modTime modDate crc csize usize : Nat)
    (name payload tail : List Nat)
    (hver : version < 65536) (hfl : flags < 65536) (hm : method < 65536)
    (hmt : modTime < 65536) (hmd : modDate < 65536)
    (hcrc : crc < 4294967296) (hcs : csize < 4294967296) (hus : usize < 4294967296)
    (hn : name.length < 65536) (hp : payload.length + 4 < 65536) :
    (usize = 4294967295 → payload.length < 8 →
      readFileHeader (mkLFH version flags method modTime modDate crc csize usize name
        (mkExtraRecord zip64ExtraID payload) ++ tail) = .error .errFormat) ∧
    (usize = 4294967295 → csize ≠ 4294967295 → 8 ≤ payload.length →
      ∃ f, readFileHeader (mkLFH version flags method modTime modDate crc csize usize name
          (mkExtraRecord zip64ExtraID payload) ++ tail) = .ok (f, tail) ∧
        f.uncompressedSize64 = le64 payload ∧ f.compressedSize64 = csize) ∧
    (usize ≠ 4294967295 → csize = 4294967295 → payload.length < 8 →
      readFileHeader (mkLFH version flags method modTime modDate crc csize usize name
        (mkExtraRecord zip64ExtraID payload) ++ tail) = .error .errFormat) ∧
    (usize ≠ 4294967295 → csize = 4294967295 → 8 ≤ payload.length →
      ∃ f, readFileHeader (mkLFH version flags method modTime modDate crc csize usize name
          (mkExtraRecord zip64ExtraID payload) ++ tail) = .ok (f, tail) ∧
        f.compressedSize64 = le64 payload ∧ f.uncompressedSize64 = usize) ∧
    (usize = 4294967295 → csize = 4294967295 → payload.length < 16 →
      readFileHeader (mkLFH version flags method modTime modDate crc csize usize name
        (mkExtraRecord zip64ExtraID payload) ++ tail) = .error .errFormat) ∧
    (usize = 4294967295 → csize = 4294967295 → 16 ≤ payload.length →
      ∃ f, readFileHeader (mkLFH version flags method modTime modDate crc csize usize name
          (mkExtraRecord zip64ExtraID payload) ++ tail) = .ok (f, tail) ∧
        f.uncompressedSize64 = le64 payload ∧ f.compressedSize64 = le64 (payload.drop 8)) ∧
    (∀ extra2 : List Nat, extra2.length < 65536 → extrasHasZip64 extra2 = false →
      csize = 4294967295 →
      readFileHeader (mkLFH version flags method modTime modDate crc csize usize name
        extra2 ++ tail) = .error .errFormat) := by
  have hmaster := readFileHeader_mkLFH version flags method modTime modDate crc csize usize
    name (mkExtraRecord zip64ExtraID payload) tail hver hfl hm hmt hmd hcrc hcs hus hn
    (by simp only [mkExtraRecord, List.length_cons, List.length_append]; omega)
  rw [parseExtras_single zip64ExtraID payload _ (by decide) (by omega)] at hmaster
  rw [processField_zip64] at hmaster
  refine ⟨?_, ?_, ?_, ?_, ?_, ?_, ?_⟩
  · intro hu hlt
    rw [hmaster]
    simp only [hu, decide_eq_true_eq]
    rw [if_pos trivial, if_pos hlt]
  · intro hu hc hge
    rw [hmaster]
    simp only [hu, decide_eq_true_eq]
    rw [if_pos trivial, if_neg (show ¬payload.length < 8 by omega), if_neg hc]
    dsimp only
    rw [if_neg (by simp [hc])]
    exact ⟨_, rfl, rfl, rfl⟩
  · intro hu hc hlt
    rw [hmaster]
    simp only [hc, decide_eq_true_eq]
    rw [if_neg hu, if_pos trivial, if_pos hlt]
  · intro hu hc hge
    rw [hmaster]
    simp only [hc, decide_eq_true_eq]
    rw [if_neg hu, if_pos trivial, if_neg (show ¬payload.length < 8 by omega)]
    dsimp only
    rw [if_neg (by simp)]
    exact ⟨_, rfl, rfl, rfl⟩
  · intro hu hc hlt
    rw [hmaster]
    simp only [hu, hc, decide_eq_true_eq]
    by_cases h8 : payload.length < 8
    · rw [if_pos trivial, if_pos h8]
    · rw [if_pos trivial, if_neg h8, if_pos trivial,
        if_pos (show (payload.drop 8).length < 8 by simp only [List.length_drop]; omega)]
  · intro hu hc hge
    rw [hmaster]
    simp only [hu, hc, decide_eq_true_eq]
    rw [if_pos trivial, if_neg (show ¬payload.length < 8 by omega), if_pos trivial,
      if_neg (show ¬(payload.drop 8).length < 8 by simp only [List.length_drop]; omega)]
    dsimp only
    rw [if_neg (by simp)]
    exact ⟨_, rfl, rfl, rfl⟩
  · intro extra2 he2 hz hc
    have hmaster2 := readFileHeader_mkLFH version flags method modTime modDate crc csize usize
      name extra2 tail hver hfl hm hmt hmd hcrc hcs hus hn he2
    obtain ⟨st1, hpe, -, hnc, -, -⟩ := parseExtras_no_zip64 extra2
      ⟨usize, csize, decide (usize = 4294967295), decide (csize = 4294967295), zeroTimeNs⟩ hz
    rw [hmaster2, hpe]
    dsimp only
    rw [if_pos (by rw [hnc]; simp [hc])]

/-- Witness for C1: a header with deferred compressed size and a ZIP64 extra whose
8-byte payload declares compressed size 1 parses with CompressedSize64 = 1. -/
theorem c1_witness :
    (readFileHeader (mkLFH 20 0 0 0 0 0 4294967295 0 []
        (mkExtraRecord zip64ExtraID [1, 0, 0, 0, 0, 0, 0, 0]) ++ [])).map
      (fun p => p.1.compressedSize64) = .ok 1 := by
  obtain ⟨f, hf, hc, hu⟩ :=
    (c1_zip64_deferred_sizes 20 0 0 0 0 0 4294967295 0 [] [1, 0, 0, 0, 0, 0, 0, 0] []
      (by decide) (by decide) (by decide) (by decide) (by decide) (by decide) (by decide)
      (by decide) (by decide) (by decide)).2.2.2.1 (by decide) (by decide) (by decide)
  rw [hf]
  simp only [Except.map]
  rw [hc]
  norm_num [le64, le32, byteAt]

/-! ## The encoding classification (C6) -/

/-- One decode step: the rune lies in the CP-437-safe range [0x20, 0x7D] minus the
backslash. -/
def runeStepInRange (p : Nat × Nat) : Bool :=
  decide (0x20 ≤ p.1) && decide (p.1 ≤ 0x7d) && decide (p.1 ≠ 0x5c)

/-- One decode step: an invalid rune or the single-byte replacement character. -/
def runeStepInvalid (p : Nat × Nat) : Bool :=
  !validRune p.1 || (decide (p.1 = runeErrorVal) && decide (p.2 = 1))

theorem nameAllInRange_eq (s : List Nat) :
    nameAllInRange s = (decodedRunes s).all runeStepInRange := rfl

theorem nameHasInvalidUTF8_eq (s : List Nat) :
    nameHasInvalidUTF8 s = (decodedRunes s).any runeStepInvalid := rfl

theorem runeStepInRange_not_invalid (p : Nat × Nat) (h : runeStepInRange p = true) :
    runeStepInvalid p = false := by
  simp only [runeStepInRange, Bool.and_eq_true, decide_eq_true_eq] at h
  obtain ⟨⟨h1, h2⟩, h3⟩ := h
  have hv : validRune p.1 = true := by
    simp only [validRune, decide_eq_true_eq]
    omega
  have hne : p.1 ≠ runeErrorVal := by
    simp only [runeErrorVal]
    omega
  simp [runeStepInvalid, hv, hne]

/-- detectUTF8 in one equation: valid is the absence of an invalid decode step, and
require accumulates whether any step left the safe range. -/
theorem detectUTF8_spec (s : List Nat) (req : Bool) :
    detectUTF8 s req =
      (!nameHasInvalidUTF8 s, (req || !nameAllInRange s) && !nameHasInvalidUTF8 s) := by
  have H : ∀ (n : Nat) (s : List Nat), s.length ≤ n → ∀ req : Bool,
      detectUTF8 s req =
        (!nameHasInvalidUTF8 s, (req || !nameAllInRange s) && !nameHasInvalidUTF8 s) := by
    intro n
    induction n with
    | zero =>
      intro s hle req
      have hnil : s = [] := List.eq_nil_of_length_eq_zero (by omega)
      subst hnil
      simp [detectUTF8, nameHasInvalidUTF8, nameAllInRange, decodedRunes]
    | succ k ih =>
      intro s hle req
      match s with
      | [] => simp [detectUTF8, nameHasInvalidUTF8, nameAllInRange, decodedRunes]
      | c :: t =>
        have hstep : decodedRunes (c :: t) =
            decodeRune (c :: t) :: decodedRunes ((c :: t).drop (decodeRune (c :: t)).2) := by
          rw [decodedRunes]
        have hrec := ih ((c :: t).drop (decodeRune (c :: t)).2)
          (by
            have := decodeRune_size_pos c t
            simp only [List.length_drop, List.length_cons] at hle ⊢
            omega)
        rw [detectUTF8]
        by_cases hout : (decodeRune (c :: t)).1 < 0x20 ∨ 0x7d < (decodeRune (c :: t)).1 ∨
            (decodeRune (c :: t)).1 = 0x5c
        · rw [if_pos hout]
          by_cases hbad : ¬validRune (decodeRune (c :: t)).1 = true ∨
              ((decodeRune (c :: t)).1 = runeErrorVal ∧ (decodeRune (c :: t)).2 = 1)
          · rw [if_pos hbad]
            have hinv : nameHasInvalidUTF8 (c :: t) = true := by
              rw [nameHasInvalidUTF8_eq, hstep, List.any_cons]
              have : runeStepInvalid (decodeRune (c :: t)) = true := by
                simp only [runeStepInvalid, Bool.or_eq_true, Bool.not_eq_true',
                  Bool.and_eq_true, decide_eq_true_eq]
                rcases hbad with hb | hb
                · left
                  simpa using hb
                · right
                  exact hb
              simp [this]
            rw [hinv]
            simp
          · rw [if_neg hbad]
            rw [hrec true]
            have hinv : nameHasInvalidUTF8 (c :: t) =
                nameHasInvalidUTF8 ((c :: t).drop (decodeRune (c :: t)).2) := by
              rw [nameHasInvalidUTF8_eq, nameHasInvalidUTF8_eq, hstep, List.any_cons]
              have : runeStepInvalid (decodeRune (c :: t)) = false := by
                simp only [runeStepInvalid, Bool.or_eq_false_iff, Bool.not_eq_true',
                  Bool.and_eq_false_iff, decide_eq_false_iff_not]
                push_neg at hbad
                obtain ⟨hb1, hb2⟩ := hbad
                constructor
                · simpa using hb1
                · by_cases he : (decodeRune (c :: t)).1 = runeErrorVal
                  · right
                    simpa using hb2 he
                  · left
                    simpa using he
              simp [this]
            have hrange : nameAllInRange (c :: t) = false := by
              rw [nameAllInRange_eq, hstep, List.all_cons]
              have : runeStepInRange (decodeRune (c :: t)) = false := by
                simp only [runeStepInRange, Bool.and_eq_false_iff, decide_eq_false_iff_not]
                rcases hout with ho | ho | ho
                · left
                  left
                  omega
                · left
                  right
                  omega
                · right
                  simpa using ho
              simp [this]
            rw [hinv, hrange]
            simp
        · rw [if_neg hout]
          rw [hrec req]
          push_neg at hout
          obtain ⟨h1, h2, h3⟩ := hout
          have hstepR : runeStepInRange (decodeRune (c :: t)) = true := by
            simp only [runeStepInRange, Bool.and_eq_true, decide_eq_true_eq]
            exact ⟨⟨by omega, by omega⟩, h3⟩
          have hinv : nameHasInvalidUTF8 (c :: t) =
              nameHasInvalidUTF8 ((c :: t).drop (decodeRune (c :: t)).2) := by
            rw [nameHasInvalidUTF8_eq, nameHasInvalidUTF8_eq, hstep, List.any_cons]
            simp [runeStepInRange_not_invalid _ hstepR]
          have hrange : nameAllInRange (c :: t) =
              nameAllInRange ((c :: t).drop (decodeRune (c :: t)).2) := by
            rw [nameAllInRange_eq, nameAllInRange_eq, hstep, List.all_cons]
            simp [hstepR]
          rw [hinv, hrange]
  exact H s.length s (le_refl _) req

/-- An all-in-range name has no invalid decode step. -/
theorem nameAllInRange_no_invalid (s : List Nat) (h : nameAllInRange s = true) :
    nameHasInvalidUTF8 s = false := by
  rw [nameAllInRange_eq, List.all_eq_true] at h
  rw [nameHasInvalidUTF8_eq]
  rw [List.any_eq_false]
  intro p hp
  simp only [Bool.not_eq_true]
  exact runeStepInRange_not_invalid p (h p hp)

/-- The NonUTF8 switch in terms of the name's decode steps (the comment being
always empty for a local header). -/
theorem nonUTF8Of_spec (name : List Nat) (flags : Nat) :
    nonUTF8Of name flags =
      if nameHasInvalidUTF8 name = true then true
      else if nameAllInRange name = true then false
      else decide (flags % 4096 / 2048 = 0) := by
  unfold nonUTF8Of
  rw [detectUTF8_spec]
  rw [show detectUTF8 [] false = (true, false) by simp [detectUTF8]]
  cases hinv : nameHasInvalidUTF8 name <;> cases hran : nameAllInRange name <;>
    simp [hinv, hran]

/-- C6: a parsed entry name with every decoded character in [0x20, 0x7D] minus
0x5C gets NonUTF8 = false regardless of flag bit 0x800; a name containing an
invalid UTF-8 byte sequence gets NonUTF8 = true regardless of the flag; otherwise
NonUTF8 is the negation of flag bit 0x800. -/
theorem c6_name_encoding (version flags method modTime modDate crc csize usize : Nat)
    (name extra tail : List Nat)
    (hver : version < 65536) (hfl : flags < 65536) (hm : method < 65536)
    (hmt : modTime < 65536) (hmd : modDate < 65536)
    (hcrc : crc < 4294967296) (hcs : csize < 4294967296) (hus : usize < 4294967296)
    (hn : name.length < 65536) (he : extra.length < 65536)
    (f : FileHeader) (rest2 : List Nat)
    (hok : readFileHeader (mkLFH version flags method modTime modDate crc csize usize
      name extra ++ tail) = .ok (f, rest2)) :
    (nameAllInRange name = true → f.nonUTF8 = false) ∧
    (nameHasInvalidUTF8 name = true → f.nonUTF8 = true) ∧
    (nameAllInRange name = false → nameHasInvalidUTF8 name = false →
      f.nonUTF8 = decide (flags % 4096 / 2048 = 0)) := by
  have hmaster := readFileHeader_mkLFH version flags method modTime modDate crc csize usize
    name extra tail hver hfl hm hmt hmd hcrc hcs hus hn he
  rw [hmaster] at hok
  have hf : f.nonUTF8 = nonUTF8Of name flags := by
    cases hpe : parseExtras extra
        { u64 := usize, c64 := csize, needU := decide (usize = 4294967295),
          needC := decide (csize = 4294967295), modNs := zeroTimeNs } with
    | error e =>
      rw [hpe] at hok
      exact absurd hok (by simp)
    | ok st =>
      rw [hpe] at hok
      dsimp only at hok
      by_cases hnc : st.needC = true
      · rw [if_pos hnc] at hok
        exact absurd hok (by simp)
      · rw [if_neg hnc] at hok
        simp only [Except.ok.injEq, Prod.mk.injEq] at hok
        rw [← hok.1]
  rw [hf, nonUTF8Of_spec]
  refine ⟨?_, ?_, ?_⟩
  · intro h
    rw [if_neg (by simp [nameAllInRange_no_invalid name h]), if_pos h]
  · intro h
    rw [if_pos h]
  · intro h1 h2
    rw [if_neg (by simp [h2]), if_neg (by simp [h1])]

/-- The header parsed from a minimal local file header whose one-byte name is the
letter A. -/
def letterAHeader : FileHeader :=
  { readerVersion := 0, flags := 0, method := 0, modifiedTime := 0, modifiedDate := 0,
    crc32 := 0, compressedSize := 0, uncompressedSize := 0,
    compressedSize64 := 0, uncompressedSize64 := 0, name := [65], extra := [],
    nonUTF8 := false, modified := { ns := 312768000000000000, offset := 0, isUTC := true } }

theorem decodedRunes_letterA : decodedRunes [65] = [(65, 1)] := by
  rw [decodedRunes]
  norm_num [decodeRune]
  rw [decodedRunes]

theorem readFileHeader_letterA :
    readFileHeader (mkLFH 0 0 0 0 0 0 0 0 [65] [] ++ []) = .ok (letterAHeader, []) := by
  rw [readFileHeader_mkLFH 0 0 0 0 0 0 0 0 [65] [] []
    (by decide) (by decide) (by decide) (by decide) (by decide)
    (by decide) (by decide) (by decide) (by decide) (by decide)]
  rw [parseExtras_nil]
  dsimp only
  rw [if_neg (by decide)]
  rw [show nonUTF8Of [65] 0 = false by
    rw [nonUTF8Of_spec]
    rw [show nameHasInvalidUTF8 [65] = false by
      rw [nameHasInvalidUTF8_eq, decodedRunes_letterA]; decide]
    rw [show nameAllInRange [65] = true by
      rw [nameAllInRange_eq, decodedRunes_letterA]; decide]
    simp]
  rw [show resolveModified 0 0 zeroTimeNs =
      { ns := 312768000000000000, offset := 0, isUTC := true } by
    unfold resolveModified
    rw [if_pos rfl]
    decide]
  rfl

/-- Witness for C6: the name consisting of the single letter A is all in range and
yields NonUTF8 = false. -/
theorem c6_witness : nameAllInRange [65] = true ∧ letterAHeader.nonUTF8 = false := by
  have hr : nameAllInRange [65] = true := by
    rw [nameAllInRange_eq, decodedRunes_letterA]
    decide
  exact ⟨hr,
    (c6_name_encoding 0 0 0 0 0 0 0 0 [65] [] []
      (by decide) (by decide) (by decide) (by decide) (by decide)
      (by decide) (by decide) (by decide) (by decide) (by decide)
      letterAHeader [] readFileHeader_letterA).1 hr⟩

/-! ## Timestamp resolution (C7) -/

/-- The extras bytes split exactly into whole tag/size/payload records (so the walk
consumes them all without breaking early). -/
def extrasAligned (extra : List Nat) : Bool :=
  if extra.length = 0 then true
  else if extra.length < 4 then false
  else if (extra.drop 4).length < le16 (extra.drop 2) then false
  else extrasAligned ((extra.drop 4).drop (le16 (extra.drop 2)))
termination_by extra.length
decreasing_by
  all_goals
    simp only [List.length_drop]
    omega

/-- Walking record-aligned extras followed by more bytes is walking the records
and then the rest from the state they produce. -/
theorem parseExtras_append (e1 e2 : List Nat) (st : ExtrasState)
    (ha : extrasAligned e1 = true) :
    parseExtras (e1 ++ e2) st =
      match parseExtras e1 st with
      | .error e => .error e
      | .ok st1 => parseExtras e2 st1 := by
  have H : ∀ (n : Nat) (e1 : List Nat), e1.length ≤ n → ∀ st : ExtrasState,
      extrasAligned e1 = true →
      parseExtras (e1 ++ e2) st =
        match parseExtras e1 st with
        | .error e => .error e
        | .ok st1 => parseExtras e2 st1 := by
    intro n
    induction n with
    | zero =>
      intro e1 hle st _
      have : e1 = [] := List.eq_nil_of_length_eq_zero (by omega)
      subst this
      rw [parseExtras_nil]
      simp
    | succ k ih =>
      intro e1 hle st ha
      by_cases h0 : e1.length = 0
      · have : e1 = [] := List.eq_nil_of_length_eq_zero h0
        subst this
        rw [parseExtras_nil]
        simp
      · rw [extrasAligned, if_neg h0] at ha
        by_cases h4 : e1.length < 4
        · rw [if_pos h4] at ha
          exact absurd ha (by simp)
        · rw [if_neg h4] at ha
          by_cases hov : (e1.drop 4).length < le16 (e1.drop 2)
          · rw [if_pos hov] at ha
            exact absurd ha (by simp)
          · rw [if_neg hov] at ha
            have hle16a : le16 (e1 ++ e2) = le16 e1 := le16_append e2 (by omega)
            have hle16b : le16 ((e1 ++ e2).drop 2) = le16 (e1.drop 2) := by
              rw [List.drop_append_of_le_length (by omega)]
              exact le16_append e2 (by simp only [List.length_drop]; omega)
            have hdrop4 : (e1 ++ e2).drop 4 = e1.drop 4 ++ e2 :=
              List.drop_append_of_le_length (by omega)
            have hovlen : le16 (e1.drop 2) ≤ (e1.drop 4).length := by omega
            rw [parseExtras]
            rw [if_neg (by simp only [List.length_append]; omega)]
            dsimp only
            rw [hle16a, hle16b, hdrop4]
            rw [if_neg (by simp only [List.length_append]; omega)]
            rw [List.take_append_of_le_length hovlen, List.drop_append_of_le_length hovlen]
            cases hpf : processField (le16 e1) ((e1.drop 4).take (le16 (e1.drop 2))) st with
            | error e =>
              have hr : parseExtras e1 st = .error e := by
                rw [parseExtras, if_neg h4]
                dsimp only
                rw [if_neg hov, hpf]
              rw [hr]
            | ok st1 =>
              have hr : parseExtras e1 st =
                  parseExtras ((e1.drop 4).drop (le16 (e1.drop 2))) st1 := by
                rw [parseExtras, if_neg h4]
                dsimp only
                rw [if_neg hov, hpf]
              dsimp only
              rw [ih ((e1.drop 4).drop (le16 (e1.drop 2)))
                (by simp only [List.length_drop]; omega) st1 ha]
              rw [hr]
  exact H e1.length e1 (le_refl _) st ha

/-- The Unix extra record (tag 0x000D) with an 8-byte payload: skip the 4-byte
access time, take the 4-byte modify time. -/
theorem processField_unix (payload : List Nat) (st : ExtrasState)
    (h : 8 ≤ payload.length) :
    processField unixExtraID payload st =
      .ok { st with modNs := (le32 (payload.drop 4) : Int) * 1000000000 } := by
  unfold processField
  rw [if_neg (by decide), if_neg (by decide), if_pos (Or.inl rfl), if_neg (by omega)]

/-- C7 (amended): if the extras walk leaves the modify time unset (the zero time),
Modified is the 2-second-resolution DOS decode in UTC; if it found one and at least
one DOS field is non-zero, Modified is the extra-derived instant in a FixedZone
whose offset is the DOS-minus-extra delta rounded to the nearest 15 minutes and
clamped to [-12h, +14h] (out-of-range deltas collapse to zero offset); if it found
one and both DOS fields are zero, Modified is the extra-derived instant in plain
UTC with zero offset; and appending a Unix modify-time record to record-aligned
extras overrides any earlier extra-derived time — the last record wins. -/
theorem c7_amended_timestamps (version flags method modTime modDate crc csize usize : Nat)
    (name extra tail : List Nat)
    (hver : version < 65536) (hfl : flags < 65536) (hm : method < 65536)
    (hmt : modTime < 65536) (hmd : modDate < 65536)
    (hcrc : crc < 4294967296) (hcs : csize < 4294967296) (hus : usize < 4294967296)
    (hn : name.length < 65536) (he : extra.length < 65536)
    (f : FileHeader) (rest2 : List Nat) (st : ExtrasState)
    (hok : readFileHeader (mkLFH version flags method modTime modDate crc csize usize
      name extra ++ tail) = .ok (f, rest2))
    (hpe : parseExtras extra
      { u64 := usize, c64 := csize, needU := decide (usize = 4294967295),
        needC := decide (csize = 4294967295), modNs := zeroTimeNs } = .ok st) :
    (st.modNs = zeroTimeNs →
      f.modified = { ns := msDosToUnixNs modDate modTime, offset := 0, isUTC := true }) ∧
    (st.modNs ≠ zeroTimeNs → (modTime ≠ 0 ∨ modDate ≠ 0) →
      f.modified =
        ⟨st.modNs, timeZoneOffsetSecs (durSub (msDosToUnixNs modDate modTime) st.modNs),
          false⟩) ∧
    (st.modNs ≠ zeroTimeNs → modTime = 0 → modDate = 0 →
      f.modified = { ns := st.modNs, offset := 0, isUTC := true }) ∧
    (∀ (e1 actime ts : List Nat) (st0 st1 : ExtrasState),
      extrasAligned e1 = true → parseExtras e1 st0 = .ok st1 →
      actime.length = 4 → ts.length = 4 →
      parseExtras (e1 ++ mkExtraRecord unixExtraID (actime ++ ts)) st0 =
        .ok { st1 with modNs := (le32 ts : Int) * 1000000000 }) := by
  have hmaster := readFileHeader_mkLFH version flags method modTime modDate crc csize usize
    name extra tail hver hfl hm hmt hmd hcrc hcs hus hn he
  rw [hmaster, hpe] at hok
  dsimp only at hok
  have hf : f.modified = resolveModified modDate modTime st.modNs := by
    by_cases hnc : st.needC = true
    · rw [if_pos hnc] at hok
      exact absurd hok (by simp)
    · rw [if_neg hnc] at hok
      simp only [Except.ok.injEq, Prod.mk.injEq] at hok
      rw [← hok.1]
  refine ⟨?_, ?_, ?_, ?_⟩
  · intro h
    rw [hf]
    unfold resolveModified
    rw [if_pos h]
  · intro h1 h2
    rw [hf]
    unfold resolveModified
    rw [if_neg h1, if_pos h2]
  · intro h1 h2 h3
    rw [hf]
    unfold resolveModified
    rw [if_neg h1, if_neg (by simp [h2, h3])]
  · intro e1 actime ts st0 st1 ha hpe1 hac hts
    rw [parseExtras_append _ _ _ ha, hpe1]
    dsimp only
    rw [parseExtras_single unixExtraID (actime ++ ts) st1 (by decide)
      (by simp only [List.length_append]; omega)]
    rw [processField_unix (actime ++ ts) st1 (by simp only [List.length_append]; omega)]
    rw [show (actime ++ ts).drop 4 = ts by rw [← hac]; exact List.drop_left actime ts]

/-- Witness for C7's amended theorem: the minimal header has no extra-derived time,
so Modified is the DOS decode of date 0 / time 0 in UTC. -/
theorem c7_amended_witness :
    zeroLFHHeader.modified = { ns := msDosToUnixNs 0 0, offset := 0, isUTC := true } :=
  (c7_amended_timestamps 0 0 0 0 0 0 0 0 [] [] []
    (by decide) (by decide) (by decide) (by decide) (by decide)
    (by decide) (by decide) (by decide) (by decide) (by decide)
    zeroLFHHeader []
    { u64 := 0, c64 := 0, needU := decide ((0 : Nat) = 4294967295),
      needC := decide ((0 : Nat) = 4294967295), modNs := zeroTimeNs }
    readFileHeader_zeroLFH (parseExtras_nil _)).1 rfl

/-- The Unix extra field carrying modify time 312764400 (1979-11-30 minus one
hour), behind a zero access time. -/
def c7UnixPayload : List Nat := [0, 0, 0, 0, 0xF0, 0x67, 0xA4, 0x12]

/-- The header parsed from a minimal local file header with DOS date and time both
zero and the Unix extra above: the code reports the extra-derived instant in plain
UTC (offset zero), not in the FixedZone the claim predicts. -/
def c7Header : FileHeader :=
  { readerVersion := 0, flags := 0, method := 0, modifiedTime := 0, modifiedDate := 0,
    crc32 := 0, compressedSize := 0, uncompressedSize := 0,
    compressedSize64 := 0, uncompressedSize64 := 0, name := [],
    extra := mkExtraRecord unixExtraID c7UnixPayload,
    nonUTF8 := false, modified := { ns := 312764400000000000, offset := 0, isUTC := true } }

/-- C7 counterexample: with both DOS fields zero and a Unix extra supplying a
modify time one hour before the DOS decode, the code keeps plain UTC with zero
offset, while the claim's rounded clamped DOS-minus-extra delta is 3600 seconds in
a (non-UTC) fixed zone — the claim as stated is false at this input. -/
theorem c7_counterexample :
    readFileHeader (mkLFH 0 0 0 0 0 0 0 0 []
      (mkExtraRecord unixExtraID c7UnixPayload) ++ []) = .ok (c7Header, []) ∧
    c7Header.modified.isUTC = true ∧
    c7Header.modified.offset = 0 ∧
    timeZoneOffsetSecs (durSub (msDosToUnixNs 0 0) c7Header.modified.ns) = 3600 := by
  refine ⟨?_, rfl, rfl, by decide⟩
  rw [readFileHeader_mkLFH 0 0 0 0 0 0 0 0 [] (mkExtraRecord unixExtraID c7UnixPayload) []
    (by decide) (by decide) (by decide) (by decide) (by decide)
    (by decide) (by decide) (by decide) (by decide) (by decide)]
  rw [parseExtras_single unixExtraID c7UnixPayload _ (by decide) (by decide)]
  rw [processField_unix c7UnixPayload _ (by decide)]
  dsimp only
  rw [if_neg (by decide)]
  rw [show nonUTF8Of [] 0 = false by simp [nonUTF8Of, detectUTF8]]
  rw [show resolveModified 0 0 ((le32 (c7UnixPayload.drop 4) : Int) * 1000000000) =
      { ns := 312764400000000000, offset := 0, isUTC := true } by
    unfold resolveModified
    rw [if_neg (by decide), if_neg (by decide)]
    decide]
  rfl

/-! ## Tolerance of malformed extras (C8) -/

/-- With no size still deferred, no sub-record — ZIP64 included — can fail the
dispatch, and the deferred flags stay cleared. -/
theorem processField_resolved (tag : Nat) (fb : List Nat) (st : ExtrasState)
    (hu : st.needU = false) (hc : st.needC = false) :
    ∃ st1, processField tag fb st = .ok st1 ∧ st1.needU = false ∧ st1.needC = false := by
  by_cases htag : tag = zip64ExtraID
  · subst htag
    obtain ⟨u, c, nu, nc, mn⟩ := st
    simp only at hu hc
    subst hu
    subst hc
    rw [processField_zip64]
    rw [if_neg (by simp), if_neg (by simp)]
    exact ⟨_, rfl, rfl, rfl⟩
  · obtain ⟨st1, h1, h2, h3, -, -⟩ := processField_not_zip64 tag fb st htag
    exact ⟨st1, h1, h2.trans hu, h3.trans hc⟩

/-- With no size still deferred, the extras walk succeeds on every byte sequence,
malformed or not. -/
theorem parseExtras_resolved (extra : List Nat) (st : ExtrasState)
    (hu : st.needU = false) (hc : st.needC = false) :
    ∃ st1, parseExtras extra st = .ok st1 ∧ st1.needC = false := by
  have H : ∀ (n : Nat) (extra : List Nat), extra.length ≤ n → ∀ st : ExtrasState,
      st.needU = false → st.needC = false →
      ∃ st1, parseExtras extra st = .ok st1 ∧ st1.needC = false := by
    intro n
    induction n with
    | zero =>
      intro extra hle st _ hc
      have : extra.length < 4 := by omega
      rw [parseExtras, if_pos this]
      exact ⟨st, rfl, hc⟩
    | succ k ih =>
      intro extra hle st hu hc
      by_cases h4 : extra.length < 4
      · rw [parseExtras, if_pos h4]
        exact ⟨st, rfl, hc⟩
      · by_cases hov : (extra.drop 4).length < le16 (extra.drop 2)
        · rw [parseExtras, if_neg h4]
          dsimp only
          rw [if_pos hov]
          exact ⟨st, rfl, hc⟩
        · obtain ⟨st1, hpf, hu1, hc1⟩ :=
            processField_resolved (le16 extra) ((extra.drop 4).take (le16 (extra.drop 2))) st hu hc
          rw [parseExtras, if_neg h4]
          dsimp only
          rw [if_neg hov, hpf]
          exact ih ((extra.drop 4).drop (le16 (extra.drop 2)))
            (by simp only [List.length_drop]; omega) st1 hu1 hc1
  exact H extra.length extra (le_refl _) st hu hc

/-- A declared size that exceeds the remaining extra bytes ends the walk with the
state unchanged. -/
theorem parseExtras_oversize (extra : List Nat) (st : ExtrasState)
    (h4 : 4 ≤ extra.length) (hov : (extra.drop 4).length < le16 (extra.drop 2)) :
    parseExtras extra st = .ok st := by
  rw [parseExtras, if_neg (by omega)]
  dsimp only
  rw [if_pos hov]

/-- C8 (amended): a malformed extra-field sub-record never fails the header parse
except a ZIP64 record consulted for a still-deferred size with fewer than 8
remaining payload bytes: with neither size deferred every extra byte sequence
parses successfully; a record whose declared size exceeds the remaining bytes
terminates only the walk, leaving the state unchanged; an NTFS, Unix, Info-ZIP
Unix or extended-timestamp record with a too-short payload is skipped and the walk
continues; and unknown tags are skipped. -/
theorem c8_amended_malformed_extras (version flags method modTime modDate crc csize usize : Nat)
    (name extra tail : List Nat)
    (hver : version < 65536) (hfl : flags < 65536) (hm : method < 65536)
    (hmt : modTime < 65536) (hmd : modDate < 65536)
    (hcrc : crc < 4294967296) (hcs : csize < 4294967296) (hus : usize < 4294967296)
    (hn : name.length < 65536) (he : extra.length < 65536)
    (husd : usize ≠ 4294967295) (hcsd : csize ≠ 4294967295) :
    (∃ f, readFileHeader (mkLFH version flags method modTime modDate crc csize usize
      name extra ++ tail) = .ok (f, tail)) ∧
    (∀ (extra1 : List Nat) (st : ExtrasState), 4 ≤ extra1.length →
      (extra1.drop 4).length < le16 (extra1.drop 2) → parseExtras extra1 st = .ok st) ∧
    (∀ (payload rest : List Nat) (st : ExtrasState), payload.length < 65536 →
      (payload.length < 4 →
        parseExtras (mkExtraRecord ntfsExtraID payload ++ rest) st = parseExtras rest st) ∧
      (payload.length < 8 →
        parseExtras (mkExtraRecord unixExtraID payload ++ rest) st = parseExtras rest st) ∧
      (payload.length < 8 →
        parseExtras (mkExtraRecord infoZipUnixExtraID payload ++ rest) st = parseExtras rest st) ∧
      (payload.length < 5 →
        parseExtras (mkExtraRecord extTimeExtraID payload ++ rest) st = parseExtras rest st)) ∧
    (∀ (tag : Nat) (payload rest : List Nat) (st : ExtrasState),
      tag < 65536 → payload.length < 65536 →
      tag ≠ zip64ExtraID → tag ≠ ntfsExtraID → tag ≠ unixExtraID →
      tag ≠ extTimeExtraID → tag ≠ infoZipUnixExtraID →
      parseExtras (mkExtraRecord tag payload ++ rest) st = parseExtras rest st) := by
  refine ⟨?_, ?_, ?_, ?_⟩
  · have hmaster := readFileHeader_mkLFH version flags method modTime modDate crc csize usize
      name extra tail hver hfl hm hmt hmd hcrc hcs hus hn he
    obtain ⟨st1, hpe, hnc⟩ := parseExtras_resolved extra
      { u64 := usize, c64 := csize, needU := decide (usize = 4294967295),
        needC := decide (csize = 4294967295), modNs := zeroTimeNs }
      (by simp [husd]) (by simp [hcsd])
    rw [hmaster, hpe]
    dsimp only
    rw [if_neg (by simp [hnc])]
    exact ⟨_, rfl⟩
  · intro extra1 st h4 hov
    exact parseExtras_oversize extra1 st h4 hov
  · intro payload rest st hp
    refine ⟨?_, ?_, ?_, ?_⟩
    · intro hlen
      rw [parseExtras_record ntfsExtraID payload rest st (by decide) hp]
      rw [show processField ntfsExtraID payload st = .ok st by
        unfold processField
        rw [if_neg (by decide), if_pos rfl, if_pos hlen]]
    · intro hlen
      rw [parseExtras_record unixExtraID payload rest st (by decide) hp]
      rw [show processField unixExtraID payload st = .ok st by
        unfold processField
        rw [if_neg (by decide), if_neg (by decide), if_pos (Or.inl rfl), if_pos hlen]]
    · intro hlen
      rw [parseExtras_record infoZipUnixExtraID payload rest st (by decide) hp]
      rw [show processField infoZipUnixExtraID payload st = .ok st by
        unfold processField
        rw [if_neg (by decide), if_neg (by decide), if_pos (Or.inr rfl), if_pos hlen]]
    · intro hlen
      rw [parseExtras_record extTimeExtraID payload rest st (by decide) hp]
      rw [show processField extTimeExtraID payload st = .ok st by
        unfold processField
        rw [if_neg (by decide), if_neg (by decide), if_neg (by decide), if_pos rfl,
          if_pos (Or.inl hlen)]]
  · intro tag payload rest st htag hp h1 h2 h3 h4 h5
    rw [parseExtras_record tag payload rest st htag hp]
    rw [show processField tag payload st = .ok st by
      unfold processField
      rw [if_neg h1, if_neg h2, if_neg (by simp [h3, h5]), if_neg h4]]

/-- C8 counterexample: a ZIP64 sub-record with a 4-byte payload consulted for a
deferred uncompressed size is a malformed sub-record that does fail the whole
header parse with FormatError, so the claim's universal tolerance is false. -/
theorem c8_counterexample :
    readFileHeader (mkLFH 0 0 0 0 0 0 0 4294967295 []
      (mkExtraRecord zip64ExtraID [9, 9, 9, 9]) ++ []) = .error .errFormat := by
  rw [readFileHeader_mkLFH 0 0 0 0 0 0 0 4294967295 []
    (mkExtraRecord zip64ExtraID [9, 9, 9, 9]) []
    (by decide) (by decide) (by decide) (by decide) (by decide)
    (by decide) (by decide) (by decide) (by decide) (by decide)]
  rw [parseExtras_single zip64ExtraID [9, 9, 9, 9] _ (by decide) (by decide)]
  rw [processField_zip64]
  rw [if_pos (by decide), if_pos (by decide)]

/-- Witness for C8's amended theorem: a header with no deferred sizes whose extra
field is garbage (declared size far beyond the remaining bytes) still parses. -/
theorem c8_amended_witness :
    Except.isOk (readFileHeader (mkLFH 0 0 0 0 0 0 0 0 []
      [7, 0, 200, 0, 1, 2, 3] ++ [])) = true := by
  obtain ⟨f, hf⟩ :=
    (c8_amended_malformed_extras 0 0 0 0 0 0 0 0 [] [7, 0, 200, 0, 1, 2, 3] []
      (by decide) (by decide) (by decide) (by decide) (by decide)
      (by decide) (by decide) (by decide) (by decide) (by decide)
      (by decide) (by decide)).1
  rw [hf]
  rfl

end Zipstream
